import Mathlib

/-!
Verification of the fusion stacker-engine core against its specification.

The Rust sources are shallowly embedded: `u64` values become `Nat` with
explicit `% 2 ^ 64` wherever a Rust operation can wrap, column arrays become
`List Nat`, fallible operations return `Option`.  Every definition mirrors a
function of the repository (the source file and item are named in the doc
comment).  Floating-point appears in the sources only in scoring code; the
scored paths exercised here stay on small integer values where IEEE f32
arithmetic is exact, and the one transcendental path is modelled as `none`.
-/

/-! ## u64 primitives -/

/-- Wrap-around mask of Rust `u64`. -/
def U64_MOD : Nat := 2 ^ 64

/-- All-ones `u64`, Rust `!0u64`. -/
def U64_MAX : Nat := 2 ^ 64 - 1

/-- Rust `a << n` on `u64` (release build: wraps modulo `2^64`). -/
def shl64 (a n : Nat) : Nat := (a <<< n) % U64_MOD

/-- Rust `!m` on `u64`: bitwise complement within 64 bits. -/
def not64 (m : Nat) : Nat := m ^^^ U64_MAX

/-! ## Zobrist table — board.rs `ZOBRIST_TABLE`

The table is generated at compile time by an xorshift64 PRNG from a fixed
seed; `ZOBRIST_TABLE[col][row]` is the `(col * 44 + row + 1)`-th state. -/

/-- One xorshift64 step, board.rs lines 17-20.  Each intermediate value is a
`u64`; only the left shifts can wrap. -/
def xorshiftStep (s : Nat) : Nat :=
  let s1 := s ^^^ shl64 s 13
  let s2 := s1 ^^^ (s1 >>> 7)
  s2 ^^^ shl64 s2 17

/-- PRNG state after `n` steps from the fixed seed `0xdeadbeefcafe1234`. -/
def prngState : Nat → Nat
  | 0 => 0xdeadbeefcafe1234
  | n + 1 => xorshiftStep (prngState n)

/-- board.rs `ZOBRIST_TABLE`: entry for column `x`, row `y` (generated
row-major inside column-major loops, so entry (x, y) is state x*44+y+1). -/
def ZOBRIST_TABLE (x y : Nat) : Nat := prngState (x * 44 + y + 1)

/-- XOR of the Zobrist entries of column `x` selected by the set bits of
`bits`.  The source (board.rs `compute_zobrist_hash`, `set_column`) iterates
the set bits with `trailing_zeros`; XOR is commutative, so a scan of the 64
possible rows computes the same value. -/
def zobristColXor (x bits : Nat) : Nat :=
  ((List.range 64).map fun r => if bits.testBit r then ZOBRIST_TABLE x r else 0).foldr
    (· ^^^ ·) 0

/-- board.rs `compute_zobrist_hash`: XOR of table entries over all set cells
of the ten columns. -/
def compute_zobrist_hash (cols : List Nat) : Nat :=
  ((List.range 10).map fun x => zobristColXor x (cols.getD x 0)).foldr (· ^^^ ·) 0

/-! ## Board — board.rs `Board` -/

/-- board.rs `Board`: ten column words (low 40 bits used, 40..43 scratch)
plus the incrementally maintained Zobrist hash. -/
structure Board where
  cols : List Nat
  hash : Nat
deriving DecidableEq, Repr

/-- board.rs `Board::WIDTH`. -/
def Board.WIDTH : Nat := 10

/-- board.rs `Board::HEIGHT`. -/
def Board.HEIGHT : Nat := 40

/-- board.rs `Board::new` / `Default`: empty columns, hash 0. -/
def Board.new : Board := ⟨List.replicate 10 0, 0⟩

/-- board.rs `Board::get`: `(cols[x] >> y) & 1 == 1`. -/
def Board.get (b : Board) (x y : Nat) : Bool :=
  (b.cols.getD x 0 >>> y) &&& 1 == 1

/-- board.rs `Board::set`.  Toggles the cell and XORs the hash constant on
change.  The Rust code performs no bounds check: the model is faithful for
`x < 10` and `y < 44`; for `x ≥ 10`, or for `y ≥ 44` with `filled`
different from the current cell, the Rust code panics on an out-of-bounds
array index (in debug and release alike). -/
def Board.set (b : Board) (x y : Nat) (filled : Bool) : Board :=
  let col := b.cols.getD x 0
  let wasSet := (col >>> y) &&& 1 == 1
  if filled != wasSet then
    ⟨b.cols.set x (col ^^^ (1 <<< y)), b.hash ^^^ ZOBRIST_TABLE x y⟩
  else b

/-- board.rs `Board::set_raw`: set the bit if clear, XOR hash on change. -/
def Board.set_raw (b : Board) (x y : Nat) : Board :=
  let mask := 1 <<< y
  let col := b.cols.getD x 0
  if col &&& mask == 0 then
    ⟨b.cols.set x (col ||| mask), b.hash ^^^ ZOBRIST_TABLE x y⟩
  else b

/-- board.rs `Board::clear_raw`: clear the bit if set, XOR hash on change. -/
def Board.clear_raw (b : Board) (x y : Nat) : Board :=
  let mask := 1 <<< y
  let col := b.cols.getD x 0
  if col &&& mask != 0 then
    ⟨b.cols.set x (col &&& not64 mask), b.hash ^^^ ZOBRIST_TABLE x y⟩
  else b

/-- board.rs `Board::set_column`: replace column `x` by `value`, XORing the
hash constant of every differing bit. -/
def Board.set_column (b : Board) (x v : Nat) : Board :=
  let old := b.cols.getD x 0
  ⟨b.cols.set x v, b.hash ^^^ zobristColXor x (old ^^^ v)⟩

/-- board.rs `Board::column`. -/
def Board.column (b : Board) (x : Nat) : Nat := b.cols.getD x 0

/-- board.rs `Board::row`: gather bit `y` of each of the ten columns. -/
def Board.row (b : Board) (y : Nat) : Nat :=
  (List.range 10).foldl (fun acc x => acc ||| (((b.cols.getD x 0 >>> y) &&& 1) <<< x)) 0

/-- board.rs `Board::is_row_full`. -/
def Board.is_row_full (b : Board) (y : Nat) : Bool :=
  (List.range 10).all fun x => (b.cols.getD x 0 >>> y) &&& 1 == 1

/-- board.rs `Board::is_row_empty`. -/
def Board.is_row_empty (b : Board) (y : Nat) : Bool :=
  (List.range 10).all fun x => (b.cols.getD x 0 >>> y) &&& 1 == 0

/-- The column splice of one `clear_lines` iteration (board.rs lines
161-166): keep the bits below `y`, shift the bits above `y` down one. -/
def collapseCol (col y : Nat) : Nat :=
  (col &&& ((1 <<< y) - 1)) ||| shl64 (col >>> (y + 1)) y

/-- Collapse row `y` of the whole board: the `for x in 0..WIDTH` loop of
`clear_lines` (and of apply.rs `apply_move_mut`), each step a
`set_column`. -/
def Board.collapseRow (b : Board) (y : Nat) : Board :=
  (List.range 10).foldl (fun b x => b.set_column x (collapseCol (b.column x) y)) b

/-- board.rs `Board::clear_lines`, fuel-indexed: scan rows from 0, collapse a
full row in place (without advancing), otherwise advance.  Each iteration
either advances `y` or removes a full row, so `40 + 44` fuel exceeds every
possible run on a board whose columns fit in 44 bits; the scan stops at
`y = 40`. -/
def Board.clearLinesGo : Nat → Board → Nat → Nat → Board × Nat
  | 0, b, _, cleared => (b, cleared)
  | fuel + 1, b, y, cleared =>
    if y < 40 then
      if b.is_row_full y then
        Board.clearLinesGo fuel (b.collapseRow y) y (cleared + 1)
      else
        Board.clearLinesGo fuel b (y + 1) cleared
    else (b, cleared)

/-- board.rs `Board::clear_lines`: returns the board and the number of
collapsed rows. -/
def Board.clear_lines (b : Board) : Board × Nat :=
  Board.clearLinesGo 84 b 0 0

/-- Well-formed board: ten columns, each confined to the 40 playfield rows
(data-model invariant of spec §3). -/
def Board.WF (b : Board) : Prop :=
  b.cols.length = 10 ∧ ∀ c ∈ b.cols, c < 2 ^ 40

instance (b : Board) : Decidable b.WF := by
  unfold Board.WF; infer_instance

/-! ## XOR-fold algebra

The hash bookkeeping of every board mutation is an XOR of table entries;
these lemmas let the incremental hash be related to `compute_zobrist_hash`. -/

theorem xor_xor_swap (p q r s : Nat) : (p ^^^ q) ^^^ (r ^^^ s) = (p ^^^ r) ^^^ (q ^^^ s) := by
  rw [Nat.xor_assoc, Nat.xor_assoc]
  congr 1
  rw [← Nat.xor_assoc, ← Nat.xor_assoc, Nat.xor_comm q r]

theorem foldrXor_map_xor (f g : Nat → Nat) (l : List Nat) :
    ((l.map fun i => f i ^^^ g i).foldr (· ^^^ ·) 0)
      = ((l.map f).foldr (· ^^^ ·) 0) ^^^ ((l.map g).foldr (· ^^^ ·) 0) := by
  induction l with
  | nil => simp
  | cons a l ih =>
    simp only [List.map_cons, List.foldr_cons, ih]
    exact xor_xor_swap _ _ _ _

theorem foldrXor_single (h : Nat → Nat) (l : List Nat) (x : Nat) (hn : l.Nodup)
    (hz : ∀ i ∈ l, i ≠ x → h i = 0) :
    ((l.map h).foldr (· ^^^ ·) 0) = if x ∈ l then h x else 0 := by
  induction l with
  | nil => simp
  | cons a l ih =>
    simp only [List.map_cons, List.foldr_cons]
    rcases List.nodup_cons.mp hn with ⟨ha, hn'⟩
    rw [ih hn' (fun i hi hne => hz i (List.mem_cons_of_mem a hi) hne)]
    by_cases hax : a = x
    · rw [if_neg (hax ▸ ha), Nat.xor_zero, if_pos (by rw [hax]; exact List.mem_cons_self x l), hax]
    · rw [hz a (List.mem_cons_self a l) hax, Nat.zero_xor]
      by_cases hxl : x ∈ l
      · simp [List.mem_cons, hxl]
      · have hxa : ¬x = a := fun hc => hax hc.symm
        simp [List.mem_cons, hxl, hxa]

/-- `zobristColXor` is XOR-linear in its bit argument. -/
theorem zobristColXor_xor (x a b : Nat) :
    zobristColXor x (a ^^^ b) = zobristColXor x a ^^^ zobristColXor x b := by
  unfold zobristColXor
  rw [← foldrXor_map_xor]
  congr 1
  apply List.map_congr_left
  intro r _
  rw [Nat.testBit_xor]
  cases ha : a.testBit r <;> cases hb : b.testBit r <;> simp

theorem one_shiftLeft_testBit (y i : Nat) :
    (1 <<< y : Nat).testBit i = decide (i = y) := by
  rw [Nat.one_shiftLeft, Nat.testBit_two_pow]
  by_cases h : i = y
  · simp [h]
  · have h2 : ¬y = i := fun hc => h hc.symm
    simp [h, h2]

/-- `zobristColXor` of a single bit below row 64 is the table entry. -/
theorem zobristColXor_single (x y : Nat) (hy : y < 64) :
    zobristColXor x (1 <<< y) = ZOBRIST_TABLE x y := by
  unfold zobristColXor
  rw [foldrXor_single _ _ y (List.nodup_range 64)
    (fun i _ hne => by rw [one_shiftLeft_testBit]; simp [hne])]
  rw [if_pos (List.mem_range.mpr hy), one_shiftLeft_testBit]
  simp

theorem zobristColXor_zero (x : Nat) : zobristColXor x 0 = 0 := by
  unfold zobristColXor
  rw [foldrXor_single _ _ 0 (List.nodup_range 64) (fun i _ _ => by simp)]
  simp

/-- Replacing one column changes `compute_zobrist_hash` by the column XOR of
the changed bits. -/
theorem compute_zobrist_hash_set (cols : List Nat) (x v : Nat)
    (hlen : cols.length = 10) (hx : x < 10) :
    compute_zobrist_hash (cols.set x v)
      = compute_zobrist_hash cols ^^^ zobristColXor x (cols.getD x 0 ^^^ v) := by
  unfold compute_zobrist_hash
  have key : ∀ i ∈ List.range 10,
      zobristColXor i ((cols.set x v).getD i 0)
        = zobristColXor i (cols.getD i 0)
            ^^^ (if i = x then zobristColXor x (cols.getD x 0 ^^^ v) else 0) := by
    intro i _
    by_cases hix : i = x
    · subst hix
      have : (cols.set i v).getD i 0 = v := by
        rw [List.getD_eq_getElem?_getD, List.getElem?_set_self (by omega)]
        simp
      rw [this]
      simp only [if_pos rfl]
      rw [zobristColXor_xor]
      have : ∀ p q : Nat, q = p ^^^ (p ^^^ q) := by
        intro p q
        rw [← Nat.xor_assoc, Nat.xor_self, Nat.zero_xor]
      exact this _ _
    · have : (cols.set x v).getD i 0 = cols.getD i 0 := by
        rw [List.getD_eq_getElem?_getD, List.getElem?_set_ne (by omega),
          ← List.getD_eq_getElem?_getD]
      rw [this, if_neg hix, Nat.xor_zero]
  rw [List.map_congr_left key, foldrXor_map_xor]
  congr 1
  rw [foldrXor_single _ _ x (List.nodup_range 10) (fun i _ hne => by simp [hne])]
  simp [List.mem_range.mpr hx]

/-- Hash-coherence transfer quantity: every primitive mutation preserves
`hash ^^^ compute_zobrist_hash cols`. -/
def Board.delta (b : Board) : Nat := b.hash ^^^ compute_zobrist_hash b.cols

theorem xor_cancel_mid (a z c : Nat) : (a ^^^ c) ^^^ (z ^^^ c) = a ^^^ z := by
  rw [xor_xor_swap, Nat.xor_self, Nat.xor_zero]

theorem delta_set_column (b : Board) (x v : Nat) (hlen : b.cols.length = 10)
    (hx : x < 10) : (b.set_column x v).delta = b.delta := by
  unfold Board.delta Board.set_column
  simp only
  rw [compute_zobrist_hash_set b.cols x v hlen hx]
  exact xor_cancel_mid _ _ _

theorem xor_one_shift_of_and_zero {col y : Nat} (h : col &&& (1 <<< y) = 0) :
    col ^^^ (1 <<< y) = col ||| (1 <<< y) := by
  apply Nat.eq_of_testBit_eq
  intro i
  have hb := congrArg (fun n => Nat.testBit n i) h
  simp only [Nat.testBit_and, Nat.zero_testBit] at hb
  simp only [Nat.testBit_xor, Nat.testBit_or]
  cases hc : col.testBit i <;> cases hs : (1 <<< y : Nat).testBit i <;> simp_all

theorem and_not64_of_testBit {col y : Nat} (hcol : col < 2 ^ 64) (hy : y < 64) :
    col ^^^ (1 <<< y) = col &&& not64 (1 <<< y) ∨ col &&& (1 <<< y) = 0 := by
  have hmax : ∀ j, Nat.testBit U64_MAX j = decide (j < 64) := by
    intro j
    unfold U64_MAX
    exact Nat.testBit_two_pow_sub_one 64 j
  by_cases hbit : col.testBit y
  · left
    apply Nat.eq_of_testBit_eq
    intro i
    simp only [Nat.testBit_xor, Nat.testBit_and, not64, one_shiftLeft_testBit, hmax]
    by_cases hiy : i = y
    · subst hiy
      simp [hbit, hy]
    · by_cases hcoli : col.testBit i
      · have hi64 : i < 64 := by
          by_contra hge
          have hlt : col < 2 ^ i :=
            lt_of_lt_of_le hcol (Nat.pow_le_pow_right (by norm_num) (by omega))
          simp [Nat.testBit_lt_two_pow hlt] at hcoli
        simp [hiy, hcoli, hi64]
      · simp [hiy, hcoli]
  · right
    apply Nat.eq_of_testBit_eq
    intro i
    simp only [Nat.testBit_and, Nat.zero_testBit, one_shiftLeft_testBit]
    by_cases hiy : i = y
    · simp [hiy, hbit]
    · simp [hiy]

theorem getD_lt_of_forall {l : List Nat} {bound : Nat} (h : ∀ c ∈ l, c < bound)
    (hb : 0 < bound) (x : Nat) : l.getD x 0 < bound := by
  rcases Nat.lt_or_ge x l.length with hlt | hge
  · rw [List.getD_eq_getElem?_getD, List.getElem?_eq_getElem hlt]
    exact h _ (List.getElem_mem hlt)
  · rw [List.getD_eq_default _ _ hge]
    exact hb

theorem delta_set_raw (b : Board) (x y : Nat) (hlen : b.cols.length = 10)
    (hx : x < 10) (hy : y < 64) : (b.set_raw x y).delta = b.delta := by
  unfold Board.set_raw
  simp only
  by_cases h : b.cols.getD x 0 &&& (1 <<< y) = 0
  · rw [if_pos (beq_iff_eq.mpr h)]
    have hor : b.cols.getD x 0 ||| (1 <<< y) = b.cols.getD x 0 ^^^ (1 <<< y) :=
      (xor_one_shift_of_and_zero h).symm
    unfold Board.delta
    simp only
    rw [hor, compute_zobrist_hash_set b.cols x _ hlen hx]
    have hdiff : b.cols.getD x 0 ^^^ (b.cols.getD x 0 ^^^ (1 <<< y)) = 1 <<< y := by
      rw [← Nat.xor_assoc, Nat.xor_self, Nat.zero_xor]
    rw [hdiff, zobristColXor_single x y hy]
    exact xor_cancel_mid _ _ _
  · rw [if_neg (fun hc => h (beq_iff_eq.mp hc))]

theorem delta_clear_raw (b : Board) (x y : Nat) (hlen : b.cols.length = 10)
    (hcol : ∀ c ∈ b.cols, c < 2 ^ 64) (hx : x < 10) (hy : y < 64) :
    (b.clear_raw x y).delta = b.delta := by
  unfold Board.clear_raw
  simp only
  by_cases h : b.cols.getD x 0 &&& (1 <<< y) = 0
  · rw [if_neg (fun hc => bne_iff_ne.mp hc h)]
  · rw [if_pos (bne_iff_ne.mpr h)]
    have hclt : b.cols.getD x 0 < 2 ^ 64 := getD_lt_of_forall hcol (by positivity) x
    rcases @and_not64_of_testBit (b.cols.getD x 0) y hclt hy with hxor | hzero
    · have hand : b.cols.getD x 0 &&& not64 (1 <<< y) = b.cols.getD x 0 ^^^ (1 <<< y) := hxor.symm
      unfold Board.delta
      simp only
      rw [hand, compute_zobrist_hash_set b.cols x _ hlen hx]
      have hdiff : b.cols.getD x 0 ^^^ (b.cols.getD x 0 ^^^ (1 <<< y)) = 1 <<< y := by
        rw [← Nat.xor_assoc, Nat.xor_self, Nat.zero_xor]
      rw [hdiff, zobristColXor_single x y hy]
      exact xor_cancel_mid _ _ _
    · exact absurd hzero h

theorem delta_set (b : Board) (x y : Nat) (filled : Bool) (hlen : b.cols.length = 10)
    (hx : x < 10) (hy : y < 64) : (b.set x y filled).delta = b.delta := by
  unfold Board.set
  simp only
  by_cases h : filled != ((b.cols.getD x 0 >>> y) &&& 1 == 1)
  · rw [if_pos h]
    unfold Board.delta
    simp only
    rw [compute_zobrist_hash_set b.cols x _ hlen hx]
    have hdiff : b.cols.getD x 0 ^^^ (b.cols.getD x 0 ^^^ (1 <<< y)) = 1 <<< y := by
      rw [← Nat.xor_assoc, Nat.xor_self, Nat.zero_xor]
    rw [hdiff, zobristColXor_single x y hy]
    exact xor_cancel_mid _ _ _
  · rw [if_neg h]

/-! ## Pieces, rotations, minos — piece.rs -/

/-- piece.rs `Piece`. -/
inductive Piece | I | O | T | S | Z | J | L
deriving DecidableEq, Repr

/-- piece.rs `Rotation`. -/
inductive Rotation | North | East | South | West
deriving DecidableEq, Repr

/-- piece.rs `Rotation::cw`. -/
def Rotation.cw : Rotation → Rotation
  | .North => .East
  | .East => .South
  | .South => .West
  | .West => .North

/-- piece.rs `Rotation::ccw`. -/
def Rotation.ccw : Rotation → Rotation
  | .North => .West
  | .West => .South
  | .South => .East
  | .East => .North

/-- piece.rs `Rotation::flip`. -/
def Rotation.flip : Rotation → Rotation
  | .North => .South
  | .East => .West
  | .South => .North
  | .West => .East

/-- `Rotation as usize` (declaration order). -/
def Rotation.idx : Rotation → Nat
  | .North => 0
  | .East => 1
  | .South => 2
  | .West => 3

/-- `rot` back from an index 0..3 (the `[North, East, South, West][rot]`
tables of movegen_bitboard.rs). -/
def rotOfIdx : Nat → Rotation
  | 0 => .North
  | 1 => .East
  | 2 => .South
  | _ => .West

/-- piece.rs `PIECE_MINOS`: four (dx, dy) offsets per (piece, rotation). -/
def Piece.minos (p : Piece) (r : Rotation) : List (Int × Int) :=
  match p, r with
  | .I, .North => [(-1, 0), (0, 0), (1, 0), (2, 0)]
  | .I, .East => [(0, -2), (0, -1), (0, 0), (0, 1)]
  | .I, .South => [(1, 0), (0, 0), (-1, 0), (-2, 0)]
  | .I, .West => [(0, -1), (0, 0), (0, 1), (0, 2)]
  | .O, _ => [(0, 0), (1, 0), (0, 1), (1, 1)]
  | .T, .North => [(-1, 0), (0, 0), (1, 0), (0, 1)]
  | .T, .East => [(0, -1), (0, 0), (0, 1), (1, 0)]
  | .T, .South => [(-1, 0), (0, 0), (1, 0), (0, -1)]
  | .T, .West => [(0, -1), (0, 0), (0, 1), (-1, 0)]
  | .S, .North => [(-1, 0), (0, 0), (0, 1), (1, 1)]
  | .S, .East => [(0, 1), (0, 0), (1, 0), (1, -1)]
  | .S, .South => [(-1, -1), (0, -1), (0, 0), (1, 0)]
  | .S, .West => [(-1, 1), (-1, 0), (0, 0), (0, -1)]
  | .Z, .North => [(0, 0), (1, 0), (-1, 1), (0, 1)]
  | .Z, .East => [(0, -1), (0, 0), (1, 0), (1, 1)]
  | .Z, .South => [(0, -1), (1, -1), (-1, 0), (0, 0)]
  | .Z, .West => [(-1, -1), (-1, 0), (0, 0), (0, 1)]
  | .J, .North => [(-1, 0), (0, 0), (1, 0), (-1, 1)]
  | .J, .East => [(0, -1), (0, 0), (0, 1), (1, 1)]
  | .J, .South => [(1, -1), (-1, 0), (0, 0), (1, 0)]
  | .J, .West => [(-1, -1), (0, -1), (0, 0), (0, 1)]
  | .L, .North => [(-1, 0), (0, 0), (1, 0), (1, 1)]
  | .L, .East => [(0, -1), (0, 0), (0, 1), (1, -1)]
  | .L, .South => [(-1, -1), (-1, 0), (0, 0), (1, 0)]
  | .L, .West => [(-1, 1), (0, -1), (0, 0), (0, 1)]

/-- piece.rs `Piece::spawn_x`. -/
def Piece.spawn_x (_ : Piece) : Int := 4

/-- piece.rs `Piece::spawn_y` (TETR.IO row 21). -/
def Piece.spawn_y (_ : Piece) : Int := 21

/-! ## Moves — moves.rs -/

/-- moves.rs `SpinType`. -/
inductive SpinType | None | Mini | Full
deriving DecidableEq, Repr

/-- moves.rs `Move`. -/
structure Move where
  piece : Piece
  rotation : Rotation
  x : Int
  y : Int
  hold_used : Bool
  spin_type : SpinType
deriving DecidableEq, Repr

/-! ## Kicks — kicks.rs -/

/-- kicks.rs `get_jlstz_kicks` keyed by (from, to); empty for the diagonal. -/
def get_jlstz_kicks (f t : Rotation) : List (Int × Int) :=
  match f, t with
  | .North, .East => [(0, 0), (-1, 0), (-1, 1), (0, -2), (-1, -2)]
  | .East, .South => [(0, 0), (1, 0), (1, -1), (0, 2), (1, 2)]
  | .South, .West => [(0, 0), (1, 0), (1, 1), (0, -2), (1, -2)]
  | .West, .North => [(0, 0), (-1, 0), (-1, -1), (0, 2), (-1, 2)]
  | .North, .West => [(0, 0), (1, 0), (1, 1), (0, -2), (1, -2)]
  | .West, .South => [(0, 0), (-1, 0), (-1, -1), (0, 2), (-1, 2)]
  | .South, .East => [(0, 0), (-1, 0), (-1, 1), (0, -2), (-1, -2)]
  | .East, .North => [(0, 0), (1, 0), (1, -1), (0, 2), (1, 2)]
  | .North, .South => [(0, 0), (0, 1), (1, 1), (-1, 1), (1, 0), (-1, 0)]
  | .East, .West => [(0, 0), (1, 0), (1, 2), (1, 1), (0, 2), (0, 1)]
  | .South, .North => [(0, 0), (0, -1), (-1, -1), (1, -1), (-1, 0), (1, 0)]
  | .West, .East => [(0, 0), (-1, 0), (-1, 2), (-1, 1), (0, 2), (0, 1)]
  | _, _ => []

/-- kicks.rs `get_i_kicks` keyed by (from, to); empty for the diagonal. -/
def get_i_kicks (f t : Rotation) : List (Int × Int) :=
  match f, t with
  | .North, .East => [(0, 0), (1, 0), (-2, 0), (-2, -1), (1, 2)]
  | .East, .South => [(0, 0), (-1, 0), (2, 0), (-1, 2), (2, -1)]
  | .South, .West => [(0, 0), (2, 0), (-1, 0), (2, 1), (-1, -2)]
  | .West, .North => [(0, 0), (1, 0), (-2, 0), (1, -2), (-2, 1)]
  | .North, .West => [(0, 0), (-1, 0), (2, 0), (2, 1), (-1, -2)]
  | .West, .South => [(0, 0), (1, 0), (-2, 0), (1, -2), (-2, 1)]
  | .South, .East => [(0, 0), (-2, 0), (1, 0), (-2, -1), (1, 2)]
  | .East, .North => [(0, 0), (-1, 0), (2, 0), (-1, 2), (2, -1)]
  | .North, .South => [(1, -1), (1, 0), (2, 0), (0, 0), (2, -1), (0, -1)]
  | .South, .North => [(-1, 1), (-1, 0), (-2, 0), (0, 0), (-2, 1), (0, 1)]
  | .East, .West => [(-1, -1), (0, -1), (0, 1), (0, 0), (-1, 1), (-1, 0)]
  | .West, .East => [(1, 1), (0, 1), (0, 3), (0, 2), (1, 3), (1, 2)]
  | _, _ => []

/-- kicks.rs `get_kicks`: O never kicks; I and JLSTZ have their own tables. -/
def get_kicks (p : Piece) (f t : Rotation) : List (Int × Int) :=
  match p with
  | .I => get_i_kicks f t
  | .O => []
  | _ => get_jlstz_kicks f t

/-! ## Direct collision check — collision.rs -/

/-- collision.rs `collides`: some mino lands out of the 10x40 bounds or on a
filled cell. -/
def collides (b : Board) (p : Piece) (r : Rotation) (x y : Int) : Bool :=
  (p.minos r).any fun d =>
    let nx := x + d.1
    let ny := y + d.2
    nx < 0 || 10 ≤ nx || ny < 0 || 40 ≤ ny || b.get nx.toNat ny.toNat

/-- collision.rs `can_place`. -/
def can_place (b : Board) (p : Piece) (r : Rotation) (x y : Int) : Bool :=
  !(collides b p r x y)

/-! ## Spin detection — movement.rs -/

/-- movement.rs `detect_tspin`: three-corner rule around the pivot. -/
def detect_tspin (b : Board) (p : Piece) (r : Rotation) (x y : Int)
    (used_kick : Bool) : SpinType :=
  if p ≠ Piece.T then SpinType.None
  else
    let corners := [(x - 1, y + 1), (x + 1, y + 1), (x - 1, y - 1), (x + 1, y - 1)]
    let occ := fun (c : Int × Int) =>
      c.1 < 0 || 10 ≤ c.1 || c.2 < 0 || 40 ≤ c.2 || b.get c.1.toNat c.2.toNat
    let isFront := fun (i : Nat) =>
      match r with
      | .North => decide (i < 2)
      | .East => i == 1 || i == 3
      | .South => decide (2 ≤ i)
      | .West => i == 0 || i == 2
    let filled := ((List.range 4).filter fun i => occ (corners.getD i (0, 0))).length
    let front := ((List.range 4).filter fun i =>
      occ (corners.getD i (0, 0)) && isFront i).length
    if 3 ≤ filled then
      if 2 ≤ front then SpinType.Full
      else if used_kick then SpinType.Mini
      else SpinType.None
    else SpinType.None

/-- movement.rs `detect_all_spin_with_kick`: T-spin first, else the
immobility rule tags the lock as Mini. -/
def detect_all_spin_with_kick (b : Board) (p : Piece) (x y : Int) (r : Rotation)
    (used_kick : Bool) : SpinType :=
  let tspin := detect_tspin b p r x y used_kick
  if p = Piece.T ∧ tspin ≠ SpinType.None then tspin
  else
    let can_left := can_place b p r (x - 1) y
    let can_right := can_place b p r (x + 1) y
    let can_down := can_place b p r x (y - 1)
    if !can_left && !can_right && !can_down then SpinType.Mini else SpinType.None

/-- movement.rs `detect_all_spin`. -/
def detect_all_spin (b : Board) (p : Piece) (x y : Int) (r : Rotation) : SpinType :=
  detect_all_spin_with_kick b p x y r false

/-! ## Apply / Unapply — apply.rs -/

/-- The mino cells of a move, as board coordinates.  apply.rs casts
`mv.x + dx` with `as usize`; for a legal placement every coordinate is
non-negative, which `Int.toNat` models. -/
def Move.cells (mv : Move) : List (Nat × Nat) :=
  (mv.piece.minos mv.rotation).map fun d => ((mv.x + d.1).toNat, (mv.y + d.2).toNat)

/-- The stamping loop of apply.rs `apply_move_mut`: `set_raw` per mino. -/
def stampCells (b : Board) (cells : List (Nat × Nat)) : Board :=
  cells.foldl (fun bb c => bb.set_raw c.1 c.2) b

/-- The clearing loop of apply.rs `unapply_move` prelude is not needed;
this is the mino-clearing loop at its end: `clear_raw` per mino. -/
def clearCells (b : Board) (cells : List (Nat × Nat)) : Board :=
  cells.foldl (fun bb c => bb.clear_raw c.1 c.2) b

/-- apply.rs lines 46-49 (and 66-69): AND of all ten columns. -/
def fullMask (b : Board) : Nat :=
  (List.range 10).foldl (fun m x => m &&& b.column x) U64_MAX

/-- `u64::trailing_zeros`, by fuel over the 64 bit positions (returns 64 for
input 0, as in Rust). -/
def ctzGo : Nat → Nat → Nat
  | 0, _ => 0
  | fuel + 1, n => if n &&& 1 == 1 then 0 else ctzGo fuel (n >>> 1) + 1

def ctz64 (n : Nat) : Nat := if n &&& 1 == 1 then 0 else ctzGo 63 (n >>> 1) + 1

/-- One row re-insertion column splice of apply.rs `unapply_move` (lines
88-95): `lower | (row_bit << row_y) | (upper << (row_y + 1))`. -/
def uninsertCol (col y bit : Nat) : Nat :=
  (col &&& ((1 <<< y) - 1)) ||| shl64 bit y ||| shl64 (col >>> y) (y + 1)

/-- apply.rs `unapply_move` row loop: re-insert a cleared row at `y` with
occupancy `bitmap`, one `set_column` per column. -/
def Board.uninsertRow (b : Board) (y bitmap : Nat) : Board :=
  (List.range 10).foldl
    (fun bb x => bb.set_column x (uninsertCol (bb.column x) y ((bitmap >>> x) &&& 1))) b

/-- The `while full_mask != 0 && cleared_count < 4` loop of
`apply_move_mut`: record `(y, row-bitmap)` then collapse, at most `fuel`
times (called with fuel 4).  Records are returned in clearing order. -/
def applyClearGo : Nat → Board → Board × List (Nat × Nat)
  | 0, b => (b, [])
  | fuel + 1, b =>
    if fullMask b = 0 then (b, [])
    else
      ((applyClearGo fuel (b.collapseRow (ctz64 (fullMask b)))).1,
        (ctz64 (fullMask b), b.row (ctz64 (fullMask b)))
          :: (applyClearGo fuel (b.collapseRow (ctz64 (fullMask b)))).2)

/-- apply.rs `UndoInfo`.  The Rust struct holds a fixed `[(u8, u16); 4]`
array plus `cleared_count`; the list holds exactly the first
`cleared_count` recorded entries. -/
structure UndoInfo where
  mv : Move
  cleared_rows : List (Nat × Nat)
deriving DecidableEq, Repr

/-- apply.rs `apply_move_mut`: stamp the four minos, then clear up to four
full rows, recording each cleared row. -/
def apply_move_mut (b : Board) (mv : Move) : Board × UndoInfo :=
  let stamped := stampCells b mv.cells
  let r := applyClearGo 4 stamped
  (r.1, ⟨mv, r.2⟩)

/-- apply.rs `unapply_move`: re-insert the recorded rows in reverse order,
then clear the minos. -/
def unapply_move (b : Board) (u : UndoInfo) : Board :=
  let b1 := u.cleared_rows.reverse.foldl (fun bb r => bb.uninsertRow r.1 r.2) b
  clearCells b1 u.mv.cells

/-! ## Characterizing the per-column folds -/

theorem foldSet_length (f : Nat → Nat → Nat) (b : Board) (n : Nat) :
    ((List.range n).foldl (fun bb x => bb.set_column x (f x (bb.column x))) b).cols.length
      = b.cols.length := by
  induction n with
  | zero => rfl
  | succ n ih =>
    rw [List.range_succ, List.foldl_append, List.foldl_cons, List.foldl_nil]
    simp only [Board.set_column, List.length_set]
    exact ih

theorem set_column_cols (b : Board) (x v : Nat) : (b.set_column x v).cols = b.cols.set x v :=
  rfl

theorem column_eq_getD (b : Board) (x : Nat) : b.column x = b.cols.getD x 0 := rfl

theorem foldSet_getD (f : Nat → Nat → Nat) (b : Board) (n i : Nat) :
    ((List.range n).foldl (fun bb x => bb.set_column x (f x (bb.column x))) b).cols.getD i 0
      = if i < n ∧ i < b.cols.length then f i (b.cols.getD i 0) else b.cols.getD i 0 := by
  induction n generalizing i with
  | zero => simp
  | succ n ih =>
    rw [List.range_succ, List.foldl_append, List.foldl_cons, List.foldl_nil]
    have hlen : ((List.range n).foldl (fun bb x => bb.set_column x (f x (bb.column x))) b).cols.length
        = b.cols.length := foldSet_length f b n
    have hcoln : ((List.range n).foldl (fun bb x => bb.set_column x (f x (bb.column x))) b).column n
        = b.cols.getD n 0 := by
      rw [column_eq_getD, ih]
      simp
    rw [set_column_cols, hcoln]
    by_cases hin : i = n
    · subst hin
      by_cases hlt : i < b.cols.length
      · rw [List.getD_eq_getElem?_getD, List.getElem?_set_self (by rw [hlen]; exact hlt)]
        simp [hlt]
      · rw [List.set_eq_of_length_le (by omega), ih]
        simp [hlt]
    · rw [List.getD_eq_getElem?_getD, List.getElem?_set_ne (fun hc => hin hc.symm),
        ← List.getD_eq_getElem?_getD, ih]
      by_cases hi1 : i < n
      · simp [hi1, Nat.lt_succ_of_lt hi1]
      · have : ¬i < n + 1 := by omega
        simp [hi1, this]

theorem foldSet_delta (f : Nat → Nat → Nat) (b : Board) (n : Nat) (hn : n ≤ 10)
    (hlen : b.cols.length = 10) :
    ((List.range n).foldl (fun bb x => bb.set_column x (f x (bb.column x))) b).delta
      = b.delta := by
  induction n with
  | zero => rfl
  | succ n ih =>
    rw [List.range_succ, List.foldl_append, List.foldl_cons, List.foldl_nil]
    rw [delta_set_column _ _ _ (by rw [foldSet_length]; exact hlen) (by omega)]
    exact ih (by omega)

theorem collapseRow_length (b : Board) (y : Nat) :
    (b.collapseRow y).cols.length = b.cols.length :=
  foldSet_length (fun _ c => collapseCol c y) b 10

theorem collapseRow_getD (b : Board) (y i : Nat) :
    (b.collapseRow y).cols.getD i 0
      = if i < 10 ∧ i < b.cols.length then collapseCol (b.cols.getD i 0) y
        else b.cols.getD i 0 :=
  foldSet_getD (fun _ c => collapseCol c y) b 10 i

theorem collapseRow_delta (b : Board) (y : Nat) (hlen : b.cols.length = 10) :
    (b.collapseRow y).delta = b.delta :=
  foldSet_delta (fun _ c => collapseCol c y) b 10 (by omega) hlen

theorem uninsertRow_length (b : Board) (y m : Nat) :
    (b.uninsertRow y m).cols.length = b.cols.length :=
  foldSet_length (fun x c => uninsertCol c y ((m >>> x) &&& 1)) b 10

theorem uninsertRow_getD (b : Board) (y m i : Nat) :
    (b.uninsertRow y m).cols.getD i 0
      = if i < 10 ∧ i < b.cols.length then
          uninsertCol (b.cols.getD i 0) y ((m >>> i) &&& 1)
        else b.cols.getD i 0 :=
  foldSet_getD (fun x c => uninsertCol c y ((m >>> x) &&& 1)) b 10 i

theorem uninsertRow_delta (b : Board) (y m : Nat) (hlen : b.cols.length = 10) :
    (b.uninsertRow y m).delta = b.delta :=
  foldSet_delta (fun x c => uninsertCol c y ((m >>> x) &&& 1)) b 10 (by omega) hlen

/-! ## Bit-level facts for the clear/uninsert splice -/

theorem shiftRight_and_one (n k : Nat) : (n >>> k) &&& 1 = if n.testBit k then 1 else 0 := by
  rw [Nat.and_one_is_mod, Nat.testBit_to_div_mod, Nat.shiftRight_eq_div_pow]
  by_cases h : n / 2 ^ k % 2 = 1
  · simp [h]
  · simp [h]
    omega

theorem and_one_beq_one (n : Nat) : (n &&& 1 == 1) = n.testBit 0 := by
  rw [Nat.and_one_is_mod]
  rcases Nat.mod_two_eq_zero_or_one n with h | h <;>
    simp [h, Nat.testBit_to_div_mod]

theorem ctzGo_testBit : ∀ (fuel m : Nat), m ≠ 0 → m < 2 ^ (fuel + 1) →
    m.testBit (ctzGo fuel m) = true := by
  intro fuel
  induction fuel with
  | zero =>
    intro m hm hlt
    interval_cases m
    · exact absurd rfl hm
    · rfl
  | succ fuel ih =>
    intro m hm hlt
    unfold ctzGo
    by_cases h : m &&& 1 == 1
    · rw [if_pos h]
      rw [and_one_beq_one] at h
      exact h
    · rw [if_neg h]
      rw [and_one_beq_one] at h
      have hmod : m % 2 = 0 := by
        rcases Nat.mod_two_eq_zero_or_one m with h2 | h2
        · exact h2
        · exfalso
          apply h
          simp [Nat.testBit_to_div_mod, h2]
      have hne : m >>> 1 ≠ 0 := by
        rw [Nat.shiftRight_eq_div_pow]
        simp only [pow_one]
        omega
      have hlt2 : m >>> 1 < 2 ^ (fuel + 1) := by
        rw [Nat.shiftRight_eq_div_pow]
        simp only [pow_one]
        have : m < 2 ^ (fuel + 2) := hlt
        rw [pow_succ] at this
        omega
      have hih := ih (m >>> 1) hne hlt2
      have hgoal : m.testBit (ctzGo fuel (m >>> 1) + 1)
          = (m >>> 1).testBit (ctzGo fuel (m >>> 1)) := by
        rw [Nat.testBit_shiftRight, Nat.add_comm]
      rw [hgoal]
      exact hih

theorem ctz64_testBit (n : Nat) (hn : n ≠ 0) (hlt : n < 2 ^ 64) :
    n.testBit (ctz64 n) = true := by
  unfold ctz64
  by_cases h : n &&& 1 == 1
  · rw [if_pos h, ← and_one_beq_one]
    exact h
  · rw [if_neg h]
    rw [and_one_beq_one] at h
    have hmod : n % 2 = 0 := by
      rcases Nat.mod_two_eq_zero_or_one n with h2 | h2
      · exact h2
      · exact absurd (by simp [Nat.testBit_to_div_mod, h2]) h
    have hne : n >>> 1 ≠ 0 := by
      rw [Nat.shiftRight_eq_div_pow]
      simp only [pow_one]
      omega
    have hlt2 : n >>> 1 < 2 ^ 64 := by
      rw [Nat.shiftRight_eq_div_pow]
      simp only [pow_one]
      omega
    have hih := ctzGo_testBit 63 (n >>> 1) hne hlt2
    have hgoal : n.testBit (ctzGo 63 (n >>> 1) + 1)
        = (n >>> 1).testBit (ctzGo 63 (n >>> 1)) := by
      rw [Nat.testBit_shiftRight, Nat.add_comm]
    rw [hgoal]
    exact hih

theorem ctz64_lt_40 (n : Nat) (hn : n ≠ 0) (hlt : n < 2 ^ 40) : ctz64 n < 40 := by
  have hbit := ctz64_testBit n hn (lt_trans hlt (by norm_num))
  have := Nat.testBit_implies_ge hbit
  by_contra hge
  have : (2 : Nat) ^ 40 ≤ 2 ^ ctz64 n := Nat.pow_le_pow_right (by norm_num) (by omega)
  omega

theorem testBit_ge_64 {col : Nat} (hcol : col < 2 ^ 64) {k : Nat} (hk : 64 ≤ k) :
    col.testBit k = false :=
  Nat.testBit_lt_two_pow (lt_of_lt_of_le hcol (Nat.pow_le_pow_right (by norm_num) hk))

theorem collapseCol_testBit (col y j : Nat) (hcol : col < 2 ^ 64) :
    (collapseCol col y).testBit j
      = if j < y then col.testBit j else col.testBit (j + 1) := by
  unfold collapseCol shl64 U64_MOD
  rw [Nat.one_shiftLeft]
  simp only [Nat.testBit_or, Nat.testBit_mod_two_pow, Nat.testBit_and,
    Nat.testBit_two_pow_sub_one, Nat.testBit_shiftLeft, Nat.testBit_shiftRight]
  by_cases hjy : j < y
  · simp [hjy, Nat.not_le.mpr hjy]
  · by_cases hj64 : j < 64
    · have harith : y + 1 + (j - y) = j + 1 := by omega
      simp [hjy, hj64, Nat.le_of_not_lt (fun hc => hjy hc), harith]
    · simp [hjy, hj64, testBit_ge_64 hcol (k := j + 1) (by omega)]

theorem uninsertCol_testBit (c y bit j : Nat) (hc : c < 2 ^ 63) (hbit : bit ≤ 1)
    (hy : y < 63) :
    (uninsertCol c y bit).testBit j
      = if j < y then c.testBit j
        else if j = y then decide (bit = 1)
        else c.testBit (j - 1) := by
  have hc64 : c < 2 ^ 64 := lt_trans hc (by norm_num)
  have hbitbit : ∀ k, bit.testBit k = (decide (k = 0) && decide (bit = 1)) := by
    intro k
    interval_cases bit
    · simp
    · rw [show (1 : Nat) = 2 ^ 0 by norm_num, Nat.testBit_two_pow]
      by_cases hk : k = 0 <;> simp [hk, eq_comm]
  unfold uninsertCol shl64 U64_MOD
  rw [Nat.one_shiftLeft]
  simp only [Nat.testBit_or, Nat.testBit_mod_two_pow, Nat.testBit_and,
    Nat.testBit_two_pow_sub_one, Nat.testBit_shiftLeft, Nat.testBit_shiftRight, hbitbit]
  by_cases hjy : j < y
  · have h1 : ¬(y ≤ j) := by omega
    have h2 : ¬(y + 1 ≤ j) := by omega
    simp [hjy, h1, h2, ge_iff_le]
  · by_cases hjey : j = y
    · subst hjey
      have h1 : j < 64 := by omega
      have h2 : ¬(j + 1 ≤ j) := by omega
      have h3 : j - j = 0 := by omega
      simp [h1, h2, h3, ge_iff_le]
    · by_cases hj64 : j < 64
      · have h1 : y ≤ j := by omega
        have h2 : y + 1 ≤ j := by omega
        have h3 : ¬(j - y = 0) := by omega
        have harith : y + (j - (y + 1)) = j - 1 := by omega
        simp [hjy, hjey, hj64, h1, h2, h3, harith, ge_iff_le]
      · have hfar : c.testBit (j - 1) = false :=
          Nat.testBit_lt_two_pow
            (lt_of_lt_of_le hc (Nat.pow_le_pow_right (by norm_num) (by omega)))
        simp [hjy, hjey, hj64, hfar]

theorem collapseCol_lt_63 (col y : Nat) (hcol : col < 2 ^ 64) (hy : y < 40) :
    collapseCol col y < 2 ^ 63 := by
  apply Nat.lt_pow_two_of_testBit
  intro i hi
  rw [collapseCol_testBit col y i hcol, if_neg (by omega)]
  exact testBit_ge_64 hcol (by omega)

theorem shiftRight_and_one_le (col y : Nat) : (col >>> y) &&& 1 ≤ 1 := by
  rw [shiftRight_and_one]
  split <;> omega

/-- The apply/unapply column splice round-trip: re-inserting the saved bit
at row `y` after collapsing row `y` restores the column exactly. -/
theorem uninsertCol_collapseCol (col y : Nat) (hcol : col < 2 ^ 64) (hy : y < 40) :
    uninsertCol (collapseCol col y) y ((col >>> y) &&& 1) = col := by
  apply Nat.eq_of_testBit_eq
  intro j
  rw [uninsertCol_testBit _ y _ j (collapseCol_lt_63 col y hcol hy)
    (shiftRight_and_one_le col y) (by omega), shiftRight_and_one]
  by_cases hjy : j < y
  · rw [if_pos hjy, collapseCol_testBit col y j hcol, if_pos hjy]
  · by_cases hjey : j = y
    · subst hjey
      rw [if_neg hjy, if_pos rfl]
      by_cases h : col.testBit j <;> simp [h]
    · rw [if_neg hjy, if_neg hjey, collapseCol_testBit col y (j - 1) hcol,
        if_neg (by omega)]
      congr 1
      omega

/-! ## Board-level round trip of one collapse -/

theorem xor_right_cancel {a b c : Nat} (h : a ^^^ c = b ^^^ c) : a = b := by
  have := congrArg (fun t => t ^^^ c) h
  simpa [Nat.xor_assoc, Nat.xor_self, Nat.xor_zero] using this

theorem board_ext {b1 b2 : Board} (hc : b1.cols = b2.cols) (hh : b1.hash = b2.hash) :
    b1 = b2 := by
  cases b1
  cases b2
  simp_all

theorem cols_eq_of_getD {l1 l2 : List Nat} (hlen : l1.length = l2.length)
    (h : ∀ i, l1.getD i 0 = l2.getD i 0) : l1 = l2 := by
  apply List.ext_getElem hlen
  intro i h1 h2
  have := h i
  rw [List.getD_eq_getElem?_getD, List.getD_eq_getElem?_getD,
    List.getElem?_eq_getElem h1, List.getElem?_eq_getElem h2] at this
  simpa using this

theorem WF_getD {b : Board} (hwf : b.WF) (i : Nat) : b.cols.getD i 0 < 2 ^ 40 :=
  getD_lt_of_forall hwf.2 (by positivity) i

theorem WF_of_getD {b : Board} (hlen : b.cols.length = 10)
    (h : ∀ i, i < 10 → b.cols.getD i 0 < 2 ^ 40) : b.WF := by
  refine ⟨hlen, ?_⟩
  intro c hc
  rcases List.mem_iff_getElem.mp hc with ⟨i, hi, rfl⟩
  have := h i (by omega)
  rw [List.getD_eq_getElem?_getD, List.getElem?_eq_getElem hi] at this
  simpa using this

theorem rowFold_testBit (g : Nat → Nat) (hg : ∀ x, g x ≤ 1) (n j : Nat) :
    ((List.range n).foldl (fun acc x => acc ||| (g x <<< x)) 0).testBit j
      = (decide (j < n) && decide (g j = 1)) := by
  induction n with
  | zero => simp
  | succ n ih =>
    rw [List.range_succ, List.foldl_append, List.foldl_cons, List.foldl_nil]
    rw [Nat.testBit_or, ih]
    have hterm : (g n <<< n).testBit j = (decide (j = n) && decide (g n = 1)) := by
      rw [Nat.testBit_shiftLeft]
      by_cases hjn : n ≤ j
      · have hbit : (g n).testBit (j - n) = (decide (j - n = 0) && decide (g n = 1)) := by
          have := hg n
          interval_cases hgn : g n
          · simp
          · rw [show (1 : Nat) = 2 ^ 0 by norm_num, Nat.testBit_two_pow]
            by_cases hk : j - n = 0 <;> simp [hk, eq_comm]
        rw [hbit]
        by_cases hje : j = n
        · simp [hje, hjn]
        · have : ¬(j - n = 0) := by omega
          simp [hje, hjn, this]
      · have : ¬(j = n) := by omega
        simp [hjn, this]
    rw [hterm]
    by_cases hje : j = n
    · subst hje
      simp
    · by_cases hjlt : j < n
      · have : j < n + 1 := by omega
        simp [hjlt, hje, this]
      · have : ¬(j < n + 1) := by omega
        simp [hjlt, hje, this]

theorem row_shift_and (b : Board) (y x : Nat) (hx : x < 10) :
    ((b.row y) >>> x) &&& 1 = ((b.cols.getD x 0) >>> y) &&& 1 := by
  have hg : ∀ t, ((b.cols.getD t 0) >>> y) &&& 1 ≤ 1 := fun t => shiftRight_and_one_le _ _
  have hrow : (b.row y).testBit x = (b.cols.getD x 0).testBit y := by
    unfold Board.row
    rw [rowFold_testBit _ hg 10 x, shiftRight_and_one]
    by_cases h : (b.cols.getD x 0).testBit y <;> simp [h, hx]
  rw [shiftRight_and_one, shiftRight_and_one, hrow]

/-- One collapse followed by its re-insertion restores the board bit-exactly,
hash included. -/
theorem uninsertRow_collapseRow (b : Board) (y : Nat) (hwf : b.WF) (hy : y < 40) :
    (b.collapseRow y).uninsertRow y (b.row y) = b := by
  have hlen10 : b.cols.length = 10 := hwf.1
  have hclen : (b.collapseRow y).cols.length = 10 := by rw [collapseRow_length, hlen10]
  have hcols : ((b.collapseRow y).uninsertRow y (b.row y)).cols = b.cols := by
    apply cols_eq_of_getD (by rw [uninsertRow_length, hclen, hlen10])
    intro i
    rw [uninsertRow_getD, collapseRow_getD]
    by_cases hi : i < 10
    · have hib : i < b.cols.length := by omega
      rw [if_pos (And.intro hi hib), if_pos (And.intro hi (by omega)),
        row_shift_and b y i hi]
      exact uninsertCol_collapseCol _ y (lt_trans (WF_getD hwf i) (by norm_num)) hy
    · rw [if_neg (fun hc => hi hc.1), if_neg (fun hc => hi hc.1)]
  apply board_ext hcols
  have hd1 : ((b.collapseRow y).uninsertRow y (b.row y)).delta = b.delta := by
    rw [uninsertRow_delta _ _ _ hclen, collapseRow_delta _ _ hlen10]
  unfold Board.delta at hd1
  rw [hcols] at hd1
  exact xor_right_cancel hd1

theorem collapseCol_lt_40 (col y : Nat) (hcol : col < 2 ^ 40) (hy : y < 40) :
    collapseCol col y < 2 ^ 40 := by
  apply Nat.lt_pow_two_of_testBit
  intro i hi
  rw [collapseCol_testBit col y i (lt_trans hcol (by norm_num)), if_neg (by omega)]
  exact Nat.testBit_lt_two_pow
    (lt_of_lt_of_le hcol (Nat.pow_le_pow_right (by norm_num) (by omega)))

theorem collapseRow_WF (b : Board) (y : Nat) (hwf : b.WF) (hy : y < 40) :
    (b.collapseRow y).WF := by
  apply WF_of_getD (by rw [collapseRow_length, hwf.1])
  intro i hi
  rw [collapseRow_getD, if_pos (And.intro hi (by rw [hwf.1]; exact hi))]
  exact collapseCol_lt_40 _ y (WF_getD hwf i) hy

theorem fullMask_lt (b : Board) (hwf : b.WF) : fullMask b < 2 ^ 40 := by
  unfold fullMask
  rw [show (10 : Nat) = 9 + 1 from rfl, List.range_succ, List.foldl_append,
    List.foldl_cons, List.foldl_nil]
  calc _ ≤ b.column 9 := Nat.and_le_right
  _ < 2 ^ 40 := WF_getD hwf 9

/-- Reversing the records of the clear loop (in reverse order, as
`unapply_move` does) restores the pre-clear board exactly. -/
theorem applyClear_unwind (fuel : Nat) (b : Board) (hwf : b.WF) :
    ((applyClearGo fuel b).2.reverse.foldl (fun bb r => bb.uninsertRow r.1 r.2)
      (applyClearGo fuel b).1) = b := by
  induction fuel generalizing b with
  | zero => rfl
  | succ fuel ih =>
    rw [applyClearGo]
    by_cases hfm : fullMask b = 0
    · rw [if_pos hfm]
      rfl
    · rw [if_neg hfm]
      simp only [List.reverse_cons, List.foldl_append, List.foldl_cons, List.foldl_nil]
      have hy : ctz64 (fullMask b) < 40 := ctz64_lt_40 _ hfm (fullMask_lt b hwf)
      rw [ih (b.collapseRow (ctz64 (fullMask b))) (collapseRow_WF b _ hwf hy)]
      exact uninsertRow_collapseRow b _ hwf hy

theorem applyClear_WF (fuel : Nat) (b : Board) (hwf : b.WF) :
    (applyClearGo fuel b).1.WF := by
  induction fuel generalizing b with
  | zero => exact hwf
  | succ fuel ih =>
    rw [applyClearGo]
    by_cases hfm : fullMask b = 0
    · rw [if_pos hfm]
      exact hwf
    · rw [if_neg hfm]
      have hy : ctz64 (fullMask b) < 40 := ctz64_lt_40 _ hfm (fullMask_lt b hwf)
      exact ih _ (collapseRow_WF b _ hwf hy)

theorem applyClear_delta (fuel : Nat) (b : Board) (hwf : b.WF) :
    (applyClearGo fuel b).1.delta = b.delta := by
  induction fuel generalizing b with
  | zero => rfl
  | succ fuel ih =>
    rw [applyClearGo]
    by_cases hfm : fullMask b = 0
    · rw [if_pos hfm]
    · rw [if_neg hfm]
      have hy : ctz64 (fullMask b) < 40 := ctz64_lt_40 _ hfm (fullMask_lt b hwf)
      rw [ih _ (collapseRow_WF b _ hwf hy), collapseRow_delta _ _ hwf.1]

theorem applyClear_count_le (fuel : Nat) (b : Board) :
    (applyClearGo fuel b).2.length ≤ fuel := by
  induction fuel generalizing b with
  | zero => simp [applyClearGo]
  | succ fuel ih =>
    rw [applyClearGo]
    by_cases hfm : fullMask b = 0
    · rw [if_pos hfm]
      simp
    · rw [if_neg hfm]
      simpa using Nat.succ_le_succ (ih _)

/-! ## Stamping and clearing the four minos -/

/-- The single-bit mask that the cells of `cells` lying in column `i`
contribute. -/
def cellsMask (cells : List (Nat × Nat)) (i : Nat) : Nat :=
  cells.foldr (fun c m => if c.1 = i then m ||| (1 <<< c.2) else m) 0

theorem cellsMask_testBit (cells : List (Nat × Nat)) (i j : Nat) :
    (cellsMask cells i).testBit j = cells.any fun c => c.1 == i && c.2 == j := by
  induction cells with
  | nil => simp [cellsMask]
  | cons c cs ih =>
    unfold cellsMask
    simp only [List.foldr_cons, List.any_cons]
    by_cases hc : c.1 = i
    · rw [if_pos hc, Nat.testBit_or]
      unfold cellsMask at ih
      rw [ih, one_shiftLeft_testBit]
      by_cases hj : c.2 = j
      · simp [hc, hj]
      · have : ¬(j = c.2) := fun h => hj h.symm
        simp [hc, hj, this, Bool.or_comm]
    · rw [if_neg hc]
      unfold cellsMask at ih
      rw [ih]
      simp [hc]

theorem cellsMask_lt (cells : List (Nat × Nat)) (i : Nat)
    (hy : ∀ c ∈ cells, c.2 < 64) : cellsMask cells i < 2 ^ 64 := by
  apply Nat.lt_pow_two_of_testBit
  intro j hj
  rw [cellsMask_testBit]
  rw [List.any_eq_false]
  intro c hc
  have := hy c hc
  simp only [Bool.and_eq_true, beq_iff_eq]
  rintro ⟨-, h2⟩
  omega

theorem or_one_shift_self {col y : Nat} (h : col.testBit y = true) :
    col ||| (1 <<< y) = col := by
  apply Nat.eq_of_testBit_eq
  intro i
  rw [Nat.testBit_or, one_shiftLeft_testBit]
  by_cases hiy : i = y
  · subst hiy
    simp [h]
  · simp [hiy]

theorem and_not_one_shift_self {col y : Nat} (hcol : col < 2 ^ 64)
    (h : col.testBit y = false) : col &&& not64 (1 <<< y) = col := by
  apply Nat.eq_of_testBit_eq
  intro i
  rw [Nat.testBit_and, not64, U64_MAX, Nat.testBit_xor, one_shiftLeft_testBit,
    Nat.testBit_two_pow_sub_one]
  by_cases hiy : i = y
  · subst hiy
    simp [h]
  · by_cases hi64 : i < 64
    · simp [hiy, hi64]
    · simp [hiy, hi64, testBit_ge_64 hcol (k := i) (by omega)]

theorem beq_one_eq_testBit (col y : Nat) : ((col >>> y) &&& 1 == 1) = col.testBit y := by
  rw [shiftRight_and_one]
  by_cases h : col.testBit y <;> simp [h]

theorem get_eq_testBit (b : Board) (x y : Nat) :
    b.get x y = (b.cols.getD x 0).testBit y := by
  unfold Board.get
  rw [beq_one_eq_testBit]

theorem set_raw_length (b : Board) (x y : Nat) :
    (b.set_raw x y).cols.length = b.cols.length := by
  unfold Board.set_raw
  simp only
  by_cases hbit : b.cols.getD x 0 &&& (1 <<< y) = 0
  · rw [if_pos (beq_iff_eq.mpr hbit)]
    simp [List.length_set]
  · rw [if_neg (fun hc => hbit (beq_iff_eq.mp hc))]

theorem set_raw_getD (b : Board) (x y i : Nat) :
    (b.set_raw x y).cols.getD i 0
      = if i = x ∧ x < b.cols.length then b.cols.getD i 0 ||| (1 <<< y)
        else b.cols.getD i 0 := by
  unfold Board.set_raw
  simp only
  by_cases hbit : b.cols.getD x 0 &&& (1 <<< y) = 0
  · rw [if_pos (beq_iff_eq.mpr hbit)]
    simp only
    by_cases hix : i = x
    · subst hix
      by_cases hlt : i < b.cols.length
      · rw [List.getD_eq_getElem?_getD, List.getElem?_set_self hlt]
        simp [hlt]
      · rw [List.set_eq_of_length_le (by omega)]
        simp [hlt]
    · rw [List.getD_eq_getElem?_getD, List.getElem?_set_ne (fun h => hix h.symm),
        ← List.getD_eq_getElem?_getD]
      simp [hix]
  · rw [if_neg (fun hc => hbit (beq_iff_eq.mp hc))]
    by_cases hix : i = x
    · subst hix
      have hset : (b.cols.getD i 0).testBit y = true := by
        by_contra hfalse
        apply hbit
        apply Nat.eq_of_testBit_eq
        intro k
        rw [Nat.testBit_and, one_shiftLeft_testBit, Nat.zero_testBit]
        by_cases hk : k = y
        · subst hk
          rw [Bool.eq_false_iff.mpr hfalse]
          simp
        · simp [hk]
      rw [or_one_shift_self hset]
      simp
    · simp [hix]

theorem clear_raw_length (b : Board) (x y : Nat) :
    (b.clear_raw x y).cols.length = b.cols.length := by
  unfold Board.clear_raw
  simp only
  by_cases hbit : b.cols.getD x 0 &&& (1 <<< y) = 0
  · rw [if_neg (fun hc => bne_iff_ne.mp hc hbit)]
  · rw [if_pos (bne_iff_ne.mpr hbit)]
    simp [List.length_set]

theorem clear_raw_getD (b : Board) (x y i : Nat) (hb : b.cols.getD x 0 < 2 ^ 64) :
    (b.clear_raw x y).cols.getD i 0
      = if i = x ∧ x < b.cols.length then b.cols.getD i 0 &&& not64 (1 <<< y)
        else b.cols.getD i 0 := by
  unfold Board.clear_raw
  simp only
  by_cases hbit : b.cols.getD x 0 &&& (1 <<< y) = 0
  · rw [if_neg (fun hc => bne_iff_ne.mp hc hbit)]
    by_cases hix : i = x
    · subst hix
      have hclear : (b.cols.getD i 0).testBit y = false := by
        by_contra htrue
        rw [Bool.not_eq_false] at htrue
        have : (b.cols.getD i 0 &&& (1 <<< y)).testBit y = true := by
          rw [Nat.testBit_and, one_shiftLeft_testBit, htrue]
          simp
        rw [hbit] at this
        simp at this
      rw [and_not_one_shift_self hb hclear]
      simp
    · simp [hix]
  · rw [if_pos (bne_iff_ne.mpr hbit)]
    simp only
    by_cases hix : i = x
    · subst hix
      by_cases hlt : i < b.cols.length
      · rw [List.getD_eq_getElem?_getD, List.getElem?_set_self hlt]
        simp [hlt]
      · rw [List.set_eq_of_length_le (by omega)]
        simp [hlt]
    · rw [List.getD_eq_getElem?_getD, List.getElem?_set_ne (fun h => hix h.symm),
        ← List.getD_eq_getElem?_getD]
      simp [hix]

theorem stampCells_length (b : Board) (cells : List (Nat × Nat)) :
    (stampCells b cells).cols.length = b.cols.length := by
  induction cells generalizing b with
  | nil => rfl
  | cons c cs ih =>
    unfold stampCells
    rw [List.foldl_cons]
    have := ih (b.set_raw c.1 c.2)
    unfold stampCells at this
    rw [this, set_raw_length]

theorem clearCells_length (b : Board) (cells : List (Nat × Nat)) :
    (clearCells b cells).cols.length = b.cols.length := by
  induction cells generalizing b with
  | nil => rfl
  | cons c cs ih =>
    unfold clearCells
    rw [List.foldl_cons]
    have := ih (b.clear_raw c.1 c.2)
    unfold clearCells at this
    rw [this, clear_raw_length]

theorem lor_right_comm (a b c : Nat) : (a ||| b) ||| c = (a ||| c) ||| b := by
  rw [Nat.or_assoc, Nat.or_comm b c, ← Nat.or_assoc]

theorem stampCells_getD (b : Board) (cells : List (Nat × Nat)) (i : Nat)
    (hall : ∀ c ∈ cells, c.1 < b.cols.length) :
    (stampCells b cells).cols.getD i 0 = b.cols.getD i 0 ||| cellsMask cells i := by
  induction cells generalizing b with
  | nil => simp [stampCells, cellsMask]
  | cons c cs ih =>
    unfold stampCells
    rw [List.foldl_cons]
    have hrec := ih (b.set_raw c.1 c.2)
      (fun d hd => by rw [set_raw_length]; exact hall d (List.mem_cons_of_mem c hd))
    unfold stampCells at hrec
    rw [hrec, set_raw_getD]
    unfold cellsMask
    rw [List.foldr_cons]
    by_cases hc : c.1 = i
    · rw [if_pos hc, if_pos ⟨hc.symm, hall c (List.mem_cons_self c cs)⟩,
        lor_right_comm, Nat.or_assoc]
    · rw [if_neg hc, if_neg (fun h => hc h.1.symm)]

theorem and_not64_or (a m1 m2 : Nat) (hm1 : m1 < 2 ^ 64) (hm2 : m2 < 2 ^ 64) :
    (a &&& not64 m1) &&& not64 m2 = a &&& not64 (m2 ||| m1) := by
  apply Nat.eq_of_testBit_eq
  intro j
  by_cases hj : j < 64
  · simp only [Nat.testBit_and, not64, U64_MAX, Nat.testBit_xor, Nat.testBit_or,
      Nat.testBit_two_pow_sub_one]
    cases a.testBit j <;> cases m1.testBit j <;> cases m2.testBit j <;> simp_all
  · simp only [Nat.testBit_and, not64, U64_MAX, Nat.testBit_xor, Nat.testBit_or,
      Nat.testBit_two_pow_sub_one, testBit_ge_64 hm1 (k := j) (by omega),
      testBit_ge_64 hm2 (k := j) (by omega)]
    simp [hj]

theorem clearCells_getD (b : Board) (cells : List (Nat × Nat)) (i : Nat)
    (hall : ∀ c ∈ cells, c.1 < b.cols.length)
    (hys : ∀ c ∈ cells, c.2 < 64)
    (hbound : ∀ j, b.cols.getD j 0 < 2 ^ 64) :
    (clearCells b cells).cols.getD i 0
      = b.cols.getD i 0 &&& not64 (cellsMask cells i) := by
  induction cells generalizing b with
  | nil =>
    simp only [clearCells, List.foldl_nil, cellsMask, List.foldr_nil]
    have : not64 0 = 2 ^ 64 - 1 := by
      unfold not64 U64_MAX
      simp
    rw [this, Nat.and_pow_two_sub_one_eq_mod, Nat.mod_eq_of_lt (hbound i)]
  | cons c cs ih =>
    unfold clearCells
    rw [List.foldl_cons]
    have hlen := clear_raw_length b c.1 c.2
    have hrec := ih (b.clear_raw c.1 c.2)
      (fun d hd => by rw [hlen]; exact hall d (List.mem_cons_of_mem c hd))
      (fun d hd => hys d (List.mem_cons_of_mem c hd))
      (fun j => by
        rw [clear_raw_getD _ _ _ _ (hbound c.1)]
        split
        · exact lt_of_le_of_lt Nat.and_le_left (hbound j)
        · exact hbound j)
    unfold clearCells at hrec
    rw [hrec, clear_raw_getD _ _ _ _ (hbound c.1)]
    unfold cellsMask
    rw [List.foldr_cons]
    by_cases hc : c.1 = i
    · rw [if_pos hc, if_pos ⟨hc.symm, hall c (List.mem_cons_self c cs)⟩]
      exact and_not64_or _ _ _
        (by rw [Nat.one_shiftLeft]
            exact Nat.pow_lt_pow_right (by norm_num) (hys c (List.mem_cons_self c cs)))
        (cellsMask_lt cs i (fun d hd => hys d (List.mem_cons_of_mem c hd)))
    · rw [if_neg hc, if_neg (fun h => hc h.1.symm)]

theorem or_and_not_self {col m : Nat} (hdisj : col &&& m = 0) (hcol : col < 2 ^ 64)
    (hm : m < 2 ^ 64) : (col ||| m) &&& not64 m = col := by
  apply Nat.eq_of_testBit_eq
  intro j
  have hd := congrArg (fun t => Nat.testBit t j) hdisj
  simp only [Nat.testBit_and, Nat.zero_testBit] at hd
  by_cases hj : j < 64
  · simp only [Nat.testBit_and, Nat.testBit_or, not64, U64_MAX, Nat.testBit_xor,
      Nat.testBit_two_pow_sub_one]
    cases hc : col.testBit j <;> cases hmj : m.testBit j <;> simp_all
  · simp only [Nat.testBit_and, Nat.testBit_or, not64, U64_MAX, Nat.testBit_xor,
      Nat.testBit_two_pow_sub_one, testBit_ge_64 hcol (k := j) (by omega),
      testBit_ge_64 hm (k := j) (by omega)]
    simp [hj]

theorem mem_lt_of_getD_forall {l : List Nat} {bound : Nat}
    (h : ∀ j, l.getD j 0 < bound) : ∀ c ∈ l, c < bound := by
  intro c hc
  rcases List.mem_iff_getElem.mp hc with ⟨i, hi, rfl⟩
  have := h i
  rw [List.getD_eq_getElem?_getD, List.getElem?_eq_getElem hi] at this
  simpa using this

theorem stampCells_delta (b : Board) (cells : List (Nat × Nat))
    (hlen : b.cols.length = 10) (hx : ∀ c ∈ cells, c.1 < 10)
    (hy : ∀ c ∈ cells, c.2 < 64) :
    (stampCells b cells).delta = b.delta := by
  induction cells generalizing b with
  | nil => rfl
  | cons c cs ih =>
    unfold stampCells
    rw [List.foldl_cons]
    have hrec := ih (b.set_raw c.1 c.2) (by rw [set_raw_length]; exact hlen)
      (fun d hd => hx d (List.mem_cons_of_mem c hd))
      (fun d hd => hy d (List.mem_cons_of_mem c hd))
    unfold stampCells at hrec
    rw [hrec]
    exact delta_set_raw b c.1 c.2 hlen (hx c (List.mem_cons_self c cs))
      (hy c (List.mem_cons_self c cs))

theorem clearCells_delta (b : Board) (cells : List (Nat × Nat))
    (hlen : b.cols.length = 10) (hx : ∀ c ∈ cells, c.1 < 10)
    (hy : ∀ c ∈ cells, c.2 < 64)
    (hbound : ∀ j, b.cols.getD j 0 < 2 ^ 64) :
    (clearCells b cells).delta = b.delta := by
  induction cells generalizing b with
  | nil => rfl
  | cons c cs ih =>
    unfold clearCells
    rw [List.foldl_cons]
    have hrec := ih (b.clear_raw c.1 c.2) (by rw [clear_raw_length]; exact hlen)
      (fun d hd => hx d (List.mem_cons_of_mem c hd))
      (fun d hd => hy d (List.mem_cons_of_mem c hd))
      (fun j => by
        rw [clear_raw_getD _ _ _ _ (hbound c.1)]
        split
        · exact lt_of_le_of_lt Nat.and_le_left (hbound j)
        · exact hbound j)
    unfold clearCells at hrec
    rw [hrec]
    exact delta_clear_raw b c.1 c.2 hlen (mem_lt_of_getD_forall hbound)
      (hx c (List.mem_cons_self c cs)) (hy c (List.mem_cons_self c cs))

theorem stampCells_WF (b : Board) (cells : List (Nat × Nat)) (hwf : b.WF)
    (hy : ∀ c ∈ cells, c.2 < 40) : (stampCells b cells).WF := by
  induction cells generalizing b with
  | nil => exact hwf
  | cons c cs ih =>
    unfold stampCells
    rw [List.foldl_cons]
    have hwf2 : (b.set_raw c.1 c.2).WF := by
      apply WF_of_getD (by rw [set_raw_length, hwf.1])
      intro i hi
      rw [set_raw_getD]
      split
      · apply Nat.or_lt_two_pow (WF_getD hwf i)
        rw [Nat.one_shiftLeft]
        exact Nat.pow_lt_pow_right (by norm_num) (hy c (List.mem_cons_self c cs))
      · exact WF_getD hwf i
    exact ih _ hwf2 (fun d hd => hy d (List.mem_cons_of_mem c hd))

theorem cells_empty_and_zero (b : Board) (cells : List (Nat × Nat)) (i : Nat)
    (hemp : ∀ c ∈ cells, b.get c.1 c.2 = false) :
    b.cols.getD i 0 &&& cellsMask cells i = 0 := by
  apply Nat.eq_of_testBit_eq
  intro j
  rw [Nat.testBit_and, Nat.zero_testBit, cellsMask_testBit]
  by_cases hcol : (b.cols.getD i 0).testBit j
  · rw [hcol, Bool.true_and, List.any_eq_false]
    intro c hcmem
    simp only [Bool.and_eq_true, beq_iff_eq, not_and]
    intro h1 h2
    have := hemp c hcmem
    rw [get_eq_testBit, h1, h2] at this
    rw [this] at hcol
    exact absurd hcol (by simp)
  · rw [Bool.not_eq_true] at hcol
    rw [hcol, Bool.false_and]

theorem cells_of_can_place (b : Board) (mv : Move)
    (h : can_place b mv.piece mv.rotation mv.x mv.y = true) :
    ∀ c ∈ mv.cells, c.1 < 10 ∧ c.2 < 40 ∧ b.get c.1 c.2 = false := by
  intro c hc
  unfold Move.cells at hc
  rcases List.mem_map.mp hc with ⟨d, hd, rfl⟩
  unfold can_place collides at h
  rw [Bool.not_eq_true', List.any_eq_false] at h
  have hthis := h d hd
  simp only [Bool.not_eq_true] at hthis
  rw [Bool.or_eq_false_iff, Bool.or_eq_false_iff, Bool.or_eq_false_iff,
    Bool.or_eq_false_iff] at hthis
  have h1 := hthis.1.1.1.1
  have h2 := hthis.1.1.1.2
  have h3 := hthis.1.1.2
  have h4 := hthis.1.2
  have h5 := hthis.2
  rw [decide_eq_false_iff_not] at h1 h2 h3 h4
  refine ⟨by omega, by omega, h5⟩

/-- C1: for every well-formed board and every placement that is legal on it
(each of the four minos lands on an empty in-bounds cell), applying the move
in place with `apply_move_mut` and reversing with `unapply_move` restores
the board bit-exactly, incrementally maintained Zobrist hash included. -/
theorem C1_apply_unapply_roundtrip (b : Board) (mv : Move) (hwf : b.WF)
    (hlegal : can_place b mv.piece mv.rotation mv.x mv.y = true) :
    unapply_move (apply_move_mut b mv).1 (apply_move_mut b mv).2 = b := by
  have hcells := cells_of_can_place b mv hlegal
  have hx10 : ∀ c ∈ mv.cells, c.1 < 10 := fun c hc => (hcells c hc).1
  have hy40 : ∀ c ∈ mv.cells, c.2 < 40 := fun c hc => (hcells c hc).2.1
  have hy64 : ∀ c ∈ mv.cells, c.2 < 64 :=
    fun c hc => lt_trans ((hcells c hc).2.1) (by norm_num)
  have hemp : ∀ c ∈ mv.cells, b.get c.1 c.2 = false := fun c hc => (hcells c hc).2.2
  have hstampWF : (stampCells b mv.cells).WF := stampCells_WF b _ hwf hy40
  have hslen : (stampCells b mv.cells).cols.length = 10 := hstampWF.1
  have hslen2 := stampCells_length b mv.cells
  have hsbound : ∀ j, (stampCells b mv.cells).cols.getD j 0 < 2 ^ 64 :=
    fun j => lt_trans (WF_getD hstampWF j) (by norm_num)
  unfold apply_move_mut unapply_move
  simp only
  rw [applyClear_unwind 4 (stampCells b mv.cells) hstampWF]
  have hcols : (clearCells (stampCells b mv.cells) mv.cells).cols = b.cols := by
    apply cols_eq_of_getD (by rw [clearCells_length, hslen2])
    intro i
    rw [clearCells_getD _ _ _ (fun c hc => by rw [hslen]; exact hx10 c hc) hy64 hsbound,
      stampCells_getD b _ i (fun c hc => by rw [hwf.1]; exact hx10 c hc)]
    exact or_and_not_self (cells_empty_and_zero b mv.cells i hemp)
      (lt_trans (WF_getD hwf i) (by norm_num)) (cellsMask_lt mv.cells i hy64)
  apply board_ext hcols
  have hd : (clearCells (stampCells b mv.cells) mv.cells).delta = b.delta := by
    rw [clearCells_delta _ _ hslen hx10 hy64 hsbound,
      stampCells_delta b _ hwf.1 hx10 hy64]
  unfold Board.delta at hd
  rw [hcols] at hd
  exact xor_right_cancel hd

/-- Witness for C1: a T piece locked at (4, 0) on the empty board. -/
theorem C1_apply_unapply_roundtrip_witness :
    Board.new.WF
      ∧ can_place Board.new Piece.T Rotation.North 4 0 = true
      ∧ unapply_move
          (apply_move_mut Board.new ⟨Piece.T, Rotation.North, 4, 0, false, SpinType.None⟩).1
          (apply_move_mut Board.new ⟨Piece.T, Rotation.North, 4, 0, false, SpinType.None⟩).2
        = Board.new :=
  ⟨by decide, by decide,
    C1_apply_unapply_roundtrip Board.new ⟨Piece.T, Rotation.North, 4, 0, false, SpinType.None⟩
      (by decide) (by decide)⟩

/-! ## Hash consistency for reachable boards (C4) -/

theorem getD_set_lt {l : List Nat} {B : Nat} (hl : ∀ j, l.getD j 0 < B) {x v : Nat}
    (hv : v < B) : ∀ j, (l.set x v).getD j 0 < B := by
  intro j
  by_cases hjx : j = x
  · by_cases hxl : x < l.length
    · subst hjx
      rw [List.getD_eq_getElem?_getD, List.getElem?_set_self hxl]
      simpa using hv
    · rw [List.set_eq_of_length_le (by omega)]
      exact hl j
  · rw [List.getD_eq_getElem?_getD, List.getElem?_set_ne (fun hc => hjx hc.symm),
      ← List.getD_eq_getElem?_getD]
    exact hl j

theorem collapseCol_lt_64 (col y : Nat) (hcol : col < 2 ^ 64) :
    collapseCol col y < 2 ^ 64 := by
  unfold collapseCol shl64
  apply Nat.or_lt_two_pow
  · exact lt_of_le_of_lt Nat.and_le_left hcol
  · have : U64_MOD = 2 ^ 64 := rfl
    rw [this]
    exact Nat.mod_lt _ (by positivity)

theorem uninsertCol_lt_64 (col y bit : Nat) (hcol : col < 2 ^ 64) :
    uninsertCol col y bit < 2 ^ 64 := by
  unfold uninsertCol shl64
  have hmod : U64_MOD = 2 ^ 64 := rfl
  apply Nat.or_lt_two_pow
  · apply Nat.or_lt_two_pow
    · exact lt_of_le_of_lt Nat.and_le_left hcol
    · rw [hmod]
      exact Nat.mod_lt _ (by positivity)
  · rw [hmod]
    exact Nat.mod_lt _ (by positivity)

/-- Boards reachable from the empty board by the mutating operations that
the engine uses: `set` (in-bounds), `set_column` (values within the 44-bit
column range the Zobrist table covers), `clear_lines`, `apply_move_mut` on a
legal move, and `unapply_move` on an undo record whose mino cells are
in-range.  The side conditions mirror the domains on which the Rust code is
panic-free. -/
inductive Reachable : Board → Prop
  | new : Reachable Board.new
  | set {b : Board} (x y : Nat) (filled : Bool) (hx : x < 10) (hy : y < 40) :
      Reachable b → Reachable (b.set x y filled)
  | set_column {b : Board} (x v : Nat) (hx : x < 10) (hv : v < 2 ^ 44) :
      Reachable b → Reachable (b.set_column x v)
  | clear_lines {b : Board} : Reachable b → Reachable b.clear_lines.1
  | apply {b : Board} (mv : Move)
      (hlegal : can_place b mv.piece mv.rotation mv.x mv.y = true) :
      Reachable b → Reachable (apply_move_mut b mv).1
  | unapply {b : Board} (u : UndoInfo)
      (hcells : ∀ c ∈ u.mv.cells, c.1 < 10 ∧ c.2 < 64) :
      Reachable b → Reachable (unapply_move b u)

/-- The invariant carried through every constructor of `Reachable`. -/
def BoardInv (b : Board) : Prop :=
  b.cols.length = 10 ∧ (∀ j, b.cols.getD j 0 < 2 ^ 64) ∧ b.delta = 0

theorem boardInv_set {b : Board} (hinv : BoardInv b) (x y : Nat) (filled : Bool)
    (hx : x < 10) (hy : y < 64) : BoardInv (b.set x y filled) := by
  obtain ⟨hlen, hbound, hdelta⟩ := hinv
  refine ⟨?_, ?_, ?_⟩
  · unfold Board.set
    simp only
    split
    · simpa [List.length_set] using hlen
    · exact hlen
  · intro j
    unfold Board.set
    simp only
    split
    · exact getD_set_lt hbound
        (Nat.xor_lt_two_pow (hbound x)
          (by rw [Nat.one_shiftLeft]; exact Nat.pow_lt_pow_right (by norm_num) hy)) j
    · exact hbound j
  · rw [delta_set b x y filled hlen hx hy]
    exact hdelta

theorem boardInv_set_column {b : Board} (hinv : BoardInv b) (x v : Nat)
    (hx : x < 10) (hv : v < 2 ^ 64) : BoardInv (b.set_column x v) := by
  obtain ⟨hlen, hbound, hdelta⟩ := hinv
  refine ⟨?_, ?_, ?_⟩
  · rw [set_column_cols]
    simpa [List.length_set] using hlen
  · intro j
    rw [set_column_cols]
    exact getD_set_lt hbound hv j
  · rw [delta_set_column b x v hlen hx]
    exact hdelta

theorem boardInv_collapseRow {b : Board} (hinv : BoardInv b) (y : Nat) :
    BoardInv (b.collapseRow y) := by
  obtain ⟨hlen, hbound, hdelta⟩ := hinv
  refine ⟨?_, ?_, ?_⟩
  · rw [collapseRow_length, hlen]
  · intro j
    rw [collapseRow_getD]
    split
    · exact collapseCol_lt_64 _ y (hbound j)
    · exact hbound j
  · rw [collapseRow_delta b y hlen]
    exact hdelta

theorem boardInv_clearLinesGo (fuel : Nat) :
    ∀ (b : Board) (y cleared : Nat), BoardInv b →
      BoardInv (Board.clearLinesGo fuel b y cleared).1 := by
  induction fuel with
  | zero =>
    intro b y cleared hinv
    exact hinv
  | succ fuel ih =>
    intro b y cleared hinv
    rw [Board.clearLinesGo]
    by_cases hy : y < 40
    · rw [if_pos hy]
      by_cases hfull : b.is_row_full y = true
      · rw [if_pos hfull]
        exact ih _ _ _ (boardInv_collapseRow hinv y)
      · rw [if_neg hfull]
        exact ih _ _ _ hinv
    · rw [if_neg hy]
      exact hinv

theorem boardInv_uninsertRow {b : Board} (hinv : BoardInv b) (y m : Nat) :
    BoardInv (b.uninsertRow y m) := by
  obtain ⟨hlen, hbound, hdelta⟩ := hinv
  refine ⟨?_, ?_, ?_⟩
  · rw [uninsertRow_length, hlen]
  · intro j
    rw [uninsertRow_getD]
    split
    · exact uninsertCol_lt_64 _ y _ (hbound j)
    · exact hbound j
  · rw [uninsertRow_delta b y m hlen]
    exact hdelta

theorem boardInv_stampCells {b : Board} (hinv : BoardInv b)
    (cells : List (Nat × Nat)) (hx : ∀ c ∈ cells, c.1 < 10)
    (hy : ∀ c ∈ cells, c.2 < 64) : BoardInv (stampCells b cells) := by
  induction cells generalizing b with
  | nil => exact hinv
  | cons c cs ih =>
    unfold stampCells
    rw [List.foldl_cons]
    have hinv2 : BoardInv (b.set_raw c.1 c.2) := by
      obtain ⟨hlen, hbound, hdelta⟩ := hinv
      refine ⟨?_, ?_, ?_⟩
      · rw [set_raw_length, hlen]
      · intro j
        rw [set_raw_getD]
        split
        · exact Nat.or_lt_two_pow (hbound j)
            (by rw [Nat.one_shiftLeft]
                exact Nat.pow_lt_pow_right (by norm_num)
                  (hy c (List.mem_cons_self c cs)))
        · exact hbound j
      · rw [delta_set_raw b c.1 c.2 hlen (hx c (List.mem_cons_self c cs))
          (hy c (List.mem_cons_self c cs))]
        exact hdelta
    exact ih hinv2 (fun d hd => hx d (List.mem_cons_of_mem c hd))
      (fun d hd => hy d (List.mem_cons_of_mem c hd))

theorem boardInv_clearCells {b : Board} (hinv : BoardInv b)
    (cells : List (Nat × Nat)) (hx : ∀ c ∈ cells, c.1 < 10)
    (hy : ∀ c ∈ cells, c.2 < 64) : BoardInv (clearCells b cells) := by
  induction cells generalizing b with
  | nil => exact hinv
  | cons c cs ih =>
    unfold clearCells
    rw [List.foldl_cons]
    have hinv2 : BoardInv (b.clear_raw c.1 c.2) := by
      obtain ⟨hlen, hbound, hdelta⟩ := hinv
      refine ⟨?_, ?_, ?_⟩
      · rw [clear_raw_length, hlen]
      · intro j
        rw [clear_raw_getD _ _ _ _ (hbound c.1)]
        split
        · exact lt_of_le_of_lt Nat.and_le_left (hbound j)
        · exact hbound j
      · rw [delta_clear_raw b c.1 c.2 hlen (mem_lt_of_getD_forall hbound)
          (hx c (List.mem_cons_self c cs)) (hy c (List.mem_cons_self c cs))]
        exact hdelta
    exact ih hinv2 (fun d hd => hx d (List.mem_cons_of_mem c hd))
      (fun d hd => hy d (List.mem_cons_of_mem c hd))

theorem boardInv_applyClearGo (fuel : Nat) :
    ∀ (b : Board), BoardInv b → BoardInv (applyClearGo fuel b).1 := by
  induction fuel with
  | zero =>
    intro b hinv
    exact hinv
  | succ fuel ih =>
    intro b hinv
    rw [applyClearGo]
    by_cases hfm : fullMask b = 0
    · rw [if_pos hfm]
      exact hinv
    · rw [if_neg hfm]
      exact ih _ (boardInv_collapseRow hinv _)

theorem boardInv_uninsertFold (recs : List (Nat × Nat)) :
    ∀ (b : Board), BoardInv b →
      BoardInv (recs.foldl (fun bb r => bb.uninsertRow r.1 r.2) b) := by
  induction recs with
  | nil =>
    intro b h
    exact h
  | cons r rs ih =>
    intro b h
    rw [List.foldl_cons]
    exact ih _ (boardInv_uninsertRow h r.1 r.2)

/-- C4: every board reachable from the empty board through `set`,
`set_column`, `clear_lines`, `apply_move_mut` and `unapply_move` keeps its
stored incremental hash equal to the XOR over all set cells of the Zobrist
table entries — and the empty board has hash 0. -/
theorem C4_hash_consistency :
    (∀ b : Board, Reachable b → b.hash = compute_zobrist_hash b.cols)
      ∧ Board.new.hash = 0 := by
  have hmain : ∀ b : Board, Reachable b → BoardInv b := by
    intro b hreach
    induction hreach with
    | new =>
      refine ⟨rfl, ?_, by decide⟩
      intro j
      have : (List.replicate 10 (0 : Nat)).getD j 0 = 0 := by
        rcases Nat.lt_or_ge j 10 with hj | hj
        · rw [List.getD_eq_getElem?_getD, List.getElem?_replicate]
          simp [hj]
        · rw [List.getD_eq_default]
          simp [hj]
      unfold Board.new
      rw [this]
      positivity
    | set x y filled hx hy _ ih => exact boardInv_set ih x y filled hx (by omega)
    | set_column x v hx hv _ ih =>
      exact boardInv_set_column ih x v hx (lt_trans hv (by norm_num))
    | clear_lines _ ih => exact boardInv_clearLinesGo 84 _ 0 0 ih
    | apply mv hlegal hreach ih =>
      unfold apply_move_mut
      simp only
      apply boardInv_applyClearGo
      apply boardInv_stampCells ih
      · intro c hc
        exact (cells_of_can_place _ mv hlegal c hc).1
      · intro c hc
        exact lt_trans (cells_of_can_place _ mv hlegal c hc).2.1 (by norm_num)
    | unapply u hcells hreach ih =>
      unfold unapply_move
      apply boardInv_clearCells
      · exact boardInv_uninsertFold _ _ ih
      · exact fun c hc => (hcells c hc).1
      · exact fun c hc => (hcells c hc).2
  refine ⟨?_, rfl⟩
  intro b hreach
  have := (hmain b hreach).2.2
  unfold Board.delta at this
  exact xor_right_cancel (c := compute_zobrist_hash b.cols) (by simpa using this)

/-- Witness for C4: a reachable board with one set cell. -/
theorem C4_hash_consistency_witness :
    (Board.new.set 3 5 true).hash
      = compute_zobrist_hash (Board.new.set 3 5 true).cols :=
  C4_hash_consistency.1 _
    (Reachable.set 3 5 true (by norm_num) (by norm_num) Reachable.new)

/-! ## C10: the in-place clear loop stops after four rows -/

/-- A board whose rows 0-4 are full except for the four cells (4,0)..(4,3):
a vertical I piece at (4,2) completes five full rows at once. -/
def c10Board : Board :=
  ⟨[31, 31, 31, 31, 16, 31, 31, 31, 31, 31],
    compute_zobrist_hash [31, 31, 31, 31, 16, 31, 31, 31, 31, 31]⟩

/-- C10: one `apply_move_mut` call clears at most four rows — the undo
record never holds more than four entries — and on a board that is full in
five rows once the piece is stamped, the four lowest rows are cleared
(each recorded as row 0 after the preceding collapses) while the fifth full
row stays on the board; `Board::clear_lines` on the same stamped board
clears all five. -/
theorem C10_at_most_four_rows :
    (∀ (b : Board) (mv : Move), (apply_move_mut b mv).2.cleared_rows.length ≤ 4)
      ∧ (apply_move_mut c10Board
          ⟨Piece.I, Rotation.East, 4, 2, false, SpinType.None⟩).2.cleared_rows
          = [(0, 1023), (0, 1023), (0, 1023), (0, 1023)]
      ∧ (apply_move_mut c10Board
          ⟨Piece.I, Rotation.East, 4, 2, false, SpinType.None⟩).1.is_row_full 0 = true
      ∧ (stampCells c10Board
          (Move.cells ⟨Piece.I, Rotation.East, 4, 2, false, SpinType.None⟩)).clear_lines.2
          = 5
      ∧ (stampCells c10Board
          (Move.cells ⟨Piece.I, Rotation.East, 4, 2, false, SpinType.None⟩)).clear_lines.1.is_row_full 0 = false := by
  refine ⟨?_, by decide, by decide, by decide, by decide⟩
  intro b mv
  exact applyClear_count_le 4 (stampCells b mv.cells)

/-! ## C9: Board::set has no bounds check -/

/-- C9 counterexample: the claim says any call with (x, y) outside
[0,9]x[0,39] leaves the board unchanged in a release build, but
`set(0, 40, true)` flips scratch bit 40 of column 0 and changes the hash. -/
theorem C9_set_out_of_bounds_counterexample :
    ¬(40 < 40)
      ∧ (Board.new.set 0 40 true).get 0 40 = true
      ∧ Board.new.get 0 40 = false
      ∧ Board.new.set 0 40 true ≠ Board.new := by
  refine ⟨by omega, by decide, by decide, ?_⟩
  intro hcontra
  have := congrArg (fun b => b.get 0 40) hcontra
  simp only at this
  rw [show (Board.new.set 0 40 true).get 0 40 = true by decide,
    show Board.new.get 0 40 = false by decide] at this
  exact absurd this (by simp)

/-- C9 amended: `Board::set` performs no bounds check.  For a column index
in range and a row in the 40..43 scratch band (in bounds of the Zobrist
table, so the Rust code does not panic), `set` writes the cell exactly as it
would an in-bounds cell: afterwards the cell reads back as `filled`, and the
call is a no-op precisely when the cell already had that value.  (For
`x ≥ 10`, or `y ≥ 44` with a differing cell value, the Rust code panics on
an out-of-bounds index rather than returning normally.) -/
theorem C9_set_scratch_rows (b : Board) (x y : Nat) (filled : Bool)
    (hx : x < 10) (_hy1 : 40 ≤ y) (_hy2 : y < 44) (hlen : b.cols.length = 10) :
    (b.set x y filled).get x y = filled
      ∧ (b.set x y filled = b ↔ b.get x y = filled) := by
  have hxlen : x < b.cols.length := by omega
  have hget : b.get x y = ((b.cols.getD x 0 >>> y) &&& 1 == 1) := rfl
  unfold Board.set
  simp only
  by_cases h : filled = ((b.cols.getD x 0 >>> y) &&& 1 == 1)
  · rw [if_neg (by rw [h]; simp)]
    refine ⟨by rw [hget, h], ?_⟩
    constructor
    · intro _
      rw [hget, h]
    · intro _
      rfl
  · rw [if_pos (by simpa using h)]
    have hcolset : (b.cols.set x (b.cols.getD x 0 ^^^ (1 <<< y))).getD x 0
        = b.cols.getD x 0 ^^^ (1 <<< y) := by
      rw [List.getD_eq_getElem?_getD, List.getElem?_set_self hxlen]
      simp
    have hflip : (b.cols.getD x 0 ^^^ (1 <<< y)).testBit y
        = !(b.cols.getD x 0).testBit y := by
      rw [Nat.testBit_xor, one_shiftLeft_testBit]
      simp
    have hgetnew : (Board.mk (b.cols.set x (b.cols.getD x 0 ^^^ (1 <<< y)))
        (b.hash ^^^ ZOBRIST_TABLE x y)).get x y = filled := by
      unfold Board.get
      simp only
      rw [beq_one_eq_testBit, hcolset, hflip]
      rw [beq_one_eq_testBit] at h
      cases hf : filled <;> cases hb2 : (b.cols.getD x 0).testBit y <;> simp_all
    refine ⟨hgetnew, ?_⟩
    constructor
    · intro hcontra
      exfalso
      have := congrArg (fun bb : Board => bb.cols.getD x 0) hcontra
      simp only at this
      rw [hcolset] at this
      have := congrArg (fun n => n.testBit y) this
      simp only [hflip] at this
      exact absurd this (by cases hb2 : (b.cols.getD x 0).testBit y <;> simp [hb2])
    · intro hcontra
      exfalso
      rw [hget] at hcontra
      exact h hcontra.symm

/-- Witness for C9 amended: flipping scratch cell (0, 40) on the empty
board. -/
theorem C9_set_scratch_rows_witness :
    (Board.new.set 0 40 true).get 0 40 = true
      ∧ (Board.new.set 0 40 true = Board.new ↔ Board.new.get 0 40 = true) :=
  C9_set_scratch_rows Board.new 0 40 true (by norm_num) (by norm_num) (by norm_num)
    (by decide)

/-! ## C8: first kick entry -/

/-- C8 counterexample: the I piece's 180-degree kick tables do not start with
the zero offset.  `get_i_kicks(North, South)` begins with (1, -1); the zero
offset appears only in fourth position. -/
theorem C8_i180_first_kick_counterexample :
    get_kicks Piece.I Rotation.North Rotation.South ≠ []
      ∧ (get_kicks Piece.I Rotation.North Rotation.South).head?
          = some ((1 : Int), (-1 : Int))
      ∧ some ((1 : Int), (-1 : Int)) ≠ some ((0 : Int), (0 : Int)) := by
  refine ⟨by decide, rfl, by decide⟩

/-- C8 amended: for every (piece, from, to) pair the kick list is either
empty (diagonal rotations, and the O piece), or starts with the zero offset
(0, 0) — except the four I-piece 180-degree tables, which start with a
non-zero offset (and I_31, West to East, does not contain (0, 0) at all). -/
theorem C8_first_kick_zero (p : Piece) (f t : Rotation) :
    get_kicks p f t = []
      ∨ (get_kicks p f t).head? = some ((0 : Int), (0 : Int))
      ∨ (p = Piece.I
          ∧ ((f = Rotation.North ∧ t = Rotation.South)
              ∨ (f = Rotation.South ∧ t = Rotation.North)
              ∨ (f = Rotation.East ∧ t = Rotation.West)
              ∨ (f = Rotation.West ∧ t = Rotation.East))
          ∧ (get_kicks p f t).head? ≠ some ((0 : Int), (0 : Int))) := by
  cases p <;> cases f <;> cases t <;> decide

/-! ## C7: Board deserialization — board.rs `impl Deserialize for Board` -/

/-- board.rs `Board::deserialize`: reject unless exactly 40 rows, then for
each row y take `value & 0x3FF` and set bit y of column x whenever bit x of
the masked row is 1, finally recompute the hash from scratch.  The Rust code
iterates rows in the outer loop and columns in the inner loop; since each
column is only ever updated from its own row bit, this is the same as
building each column independently by folding over the rows, which is the
form used here. -/
def deserializeCols (vec : List Nat) : List Nat :=
  (List.range 10).map (fun x =>
    (List.range 40).foldl (fun col y =>
      if (((vec.getD y 0 &&& 0x3FF) >>> x) &&& 1 == 1) then col ||| (1 <<< y)
      else col) 0)

def Board.deserialize (vec : List Nat) : Option Board :=
  if vec.length ≠ 40 then none
  else some ⟨deserializeCols vec, compute_zobrist_hash (deserializeCols vec)⟩

theorem deserializeCol_testBit (vec : List Nat) (x : Nat) (n : Nat) (a : Nat)
    (y : Nat) :
    ((List.range n).foldl (fun col y' =>
        if (((vec.getD y' 0 &&& 0x3FF) >>> x) &&& 1 == 1) then col ||| (1 <<< y')
        else col) a).testBit y
      = (a.testBit y || (decide (y < n) && (vec.getD y 0 &&& 0x3FF).testBit x)) := by
  induction n with
  | zero => simp
  | succ n ih =>
    rw [List.range_succ, List.foldl_append]
    simp only [List.foldl_cons, List.foldl_nil]
    rw [beq_one_eq_testBit]
    by_cases hc : (vec.getD n 0 &&& 0x3FF).testBit x
    · rw [if_pos hc, Nat.testBit_or, ih, one_shiftLeft_testBit]
      by_cases hy : y = n
      · subst hy
        have ht : decide (y < y + 1) = true := by simp
        have hyy : decide (y = y) = true := by simp
        rw [hyy, ht, hc]
        simp
      · have h1 : decide (y = n) = false := by simp [hy]
        have h2 : decide (y < n + 1) = decide (y < n) := by
          by_cases hlt : y < n
          · simp [hlt, Nat.lt_succ_of_lt hlt]
          · have : ¬y < n + 1 := by omega
            simp [hlt, this]
        rw [h1, h2, Bool.or_false]
    · rw [if_neg hc, ih]
      have hcf : (vec.getD y 0 &&& 0x3FF).testBit x = false ∨ y ≠ n := by
        by_cases hy : y = n
        · subst hy; exact Or.inl (by simpa using hc)
        · exact Or.inr hy
      rcases hcf with hcf | hcf
      · rw [hcf]
        simp
      · have h2 : decide (y < n + 1) = decide (y < n) := by
          by_cases hlt : y < n
          · simp [hlt, Nat.lt_succ_of_lt hlt]
          · have : ¬y < n + 1 := by omega
            simp [hlt, this]
        rw [h2]

/-- C7 counterexample: the claim says a 40-row input with a bit outside
positions 0..9 must fail, but `deserialize` masks each row with `& 0x3FF`
instead of rejecting it: row value 1024 (bit 10 set) loads successfully and
yields the empty board. -/
theorem C7_out_of_mask_counterexample :
    (1024 :: List.replicate 39 0).length = 40
      ∧ Nat.testBit 1024 10 = true
      ∧ Board.deserialize (1024 :: List.replicate 39 0) = some Board.new := by
  refine ⟨by decide, by decide, by decide⟩

/-- C7 amended: `deserialize` fails exactly when the input length is not 40;
any 40-row input succeeds, rows are masked with `& 0x3FF` (bits outside
0..9 are silently dropped, not rejected), and the hash of the loaded board
is recomputed from scratch from its columns. -/
theorem C7_deserialize_characterization (vec : List Nat) :
    (vec.length ≠ 40 → Board.deserialize vec = none)
      ∧ (vec.length = 40 →
          ∃ b, Board.deserialize vec = some b
            ∧ b.hash = compute_zobrist_hash b.cols
            ∧ b.cols.length = 10
            ∧ ∀ x y, x < 10 → y < 40 →
                b.get x y = (vec.getD y 0 &&& 0x3FF).testBit x) := by
  constructor
  · intro h
    unfold Board.deserialize
    rw [if_pos h]
  · intro h
    refine ⟨⟨deserializeCols vec, compute_zobrist_hash (deserializeCols vec)⟩,
      ?_, rfl, ?_, ?_⟩
    · unfold Board.deserialize
      rw [if_neg (by simp [h])]
    · unfold deserializeCols
      simp
    · intro x y hx hy
      unfold Board.get deserializeCols
      simp only
      have hmap : ((List.range 10).map (fun x =>
          (List.range 40).foldl (fun col y =>
            if (((vec.getD y 0 &&& 0x3FF) >>> x) &&& 1 == 1) then col ||| (1 <<< y)
            else col) 0)).getD x 0
          = (List.range 40).foldl (fun col y =>
              if (((vec.getD y 0 &&& 0x3FF) >>> x) &&& 1 == 1) then col ||| (1 <<< y)
              else col) 0 := by
        rw [List.getD_eq_getElem?_getD, List.getElem?_map, List.getElem?_range hx]
        simp
      rw [beq_one_eq_testBit, hmap, deserializeCol_testBit]
      simp [hy]

/-- Witness for C7 amended: a 39-row input is rejected. -/
theorem C7_deserialize_characterization_witness :
    Board.deserialize (List.replicate 39 0) = none :=
  (C7_deserialize_characterization (List.replicate 39 0)).1 (by decide)

/-! ## C5: back-to-back tracker — b2b.rs

u8 fields are modelled as Nat with explicit saturation at 255; i16
arithmetic is modelled over Int.  f32 bonuses are modelled as `Option ℚ`:
bonus values actually produced on the paths of interest (0.0 and the
constant BACK_TO_BACK_BONUS = 1.0) are exactly representable in f32 and are
given as `some q`; the `chaining_bonus` path goes through `ln_1p`, which is
not modelled, and is mapped to `none`. -/

/-- b2b.rs `ChargingConfig`.  The Rust field `at` is a reserved word in
Lean, so it is named `chargeAt` here. -/
structure ChargingConfig where
  chargeAt : Nat
  base : Nat
deriving DecidableEq, Repr

def ChargingConfig.quick_play : ChargingConfig := ⟨4, 1⟩

def ChargingConfig.tetra_league : ChargingConfig := ⟨4, 4⟩

structure B2BResult where
  bonus : Option ℚ
  surge : Option (List Nat)
deriving DecidableEq, Repr

structure B2BTracker where
  level : Nat
  chaining : Bool
  charging : Option ChargingConfig
deriving DecidableEq, Repr

/-- b2b.rs `qualifies_b2b`. -/
def qualifies_b2b (lines : Nat) (spin : SpinType) : Bool :=
  decide (0 < lines) && (decide (4 ≤ lines) || spin != SpinType.None)

/-- b2b.rs `split_surge`.  `chunk = (total as f32 / 3.0).round() as u8`:
for 1 ≤ total ≤ 255 the f32 quotient differs from the real total/3 by less
than 2^-17, the real quotient's fractional part is exactly 0, 1/3 or 2/3
(never 1/2), and Rust `round` rounds half away from zero, so the rounded
value equals the integer nearest total/3, which is (total + 1) / 3 in Nat
division; it is at most 85, so the `as u8` cast does not truncate. -/
def split_surge (total : Nat) : List Nat :=
  [(total + 1) / 3, (total + 1) / 3,
    total - min ((total + 1) / 3 * 2) 255]

/-- b2b.rs `B2BTracker::surge_on_break`.  `total` is computed in i16 (no
overflow for u8 inputs) and `total as u8` truncates mod 256. -/
def B2BTracker.surge_on_break (t : B2BTracker) : Option (List Nat) :=
  match t.charging with
  | none => none
  | some config =>
    if t.level = 0 then none
    else if min (t.level + 1) 255 ≤ config.chargeAt then none
    else
      if ((t.level : Int) - config.chargeAt + config.base + 1) ≤ 0 then none
      else some (split_surge
        (((t.level : Int) - config.chargeAt + config.base + 1).toNat % 256))

/-- b2b.rs `B2BTracker::bonus_for_level`. -/
def B2BTracker.bonus_for_level (t : B2BTracker) (level : Nat) : Option ℚ :=
  if level = 0 then some 0
  else if t.chaining then none
  else some 1

/-- b2b.rs `B2BTracker::register_clear`, returning the result together with
the updated tracker. -/
def B2BTracker.register_clear (t : B2BTracker) (lines : Nat) (spin : SpinType) :
    B2BResult × B2BTracker :=
  if lines = 0 then (⟨some 0, none⟩, t)
  else if qualifies_b2b lines spin then
    (⟨if spin = SpinType.Mini then some 0
        else (B2BTracker.mk (min (t.level + 1) 255) t.chaining t.charging).bonus_for_level
          (min (t.level + 1) 255), none⟩,
      B2BTracker.mk (min (t.level + 1) 255) t.chaining t.charging)
  else
    (⟨some 0, t.surge_on_break⟩, B2BTracker.mk 0 t.chaining t.charging)

/-- C5 counterexample: the claim requires prior level strictly greater than
`at` for a surge, but the code tests `level.saturating_add(1) <= at` for the
early return, so breaking at level = at = 4 (tetra_league) already emits the
surge [2, 2, 1] — which is also exactly the concrete behavior the spec's own
tetra_league example demands. -/
theorem C5_strict_threshold_counterexample :
    ¬((4 : Nat) > 4)
      ∧ (B2BTracker.mk 4 false
          (some ChargingConfig.tetra_league)).surge_on_break = some [2, 2, 1]
      ∧ ((B2BTracker.mk 4 false
          (some ChargingConfig.tetra_league)).register_clear 1
            SpinType.None).1.surge = some [2, 2, 1] := by
  refine ⟨by omega, by decide, by decide⟩

/-- C5 amended: on a non-qualifying positive clear the tracker emits a surge
exactly when charging is configured and `at < min(level+1, 255)` — i.e. for
level < 255, prior level greater than OR EQUAL to `at` (and level > 0) —
the surge is `split_surge((level - at + base + 1) mod 256)`, the level
resets to 0, and for 1 ≤ total ≤ 255 `split_surge` returns two equal chunks
plus a remainder summing to total. -/
theorem C5_surge_break (level : Nat) (chaining : Bool) (cfg : ChargingConfig)
    (lines : Nat) (spin : SpinType)
    (hlev : level ≤ 255) (hat : cfg.chargeAt ≤ 255) (hbase : cfg.base ≤ 255)
    (hlines : 0 < lines) (hnq : qualifies_b2b lines spin = false) :
    ((B2BTracker.mk level chaining (some cfg)).register_clear lines spin).1.surge
        = (if 0 < level ∧ cfg.chargeAt < min (level + 1) 255 then
            some (split_surge ((level - cfg.chargeAt + cfg.base + 1) % 256))
          else none)
      ∧ ((B2BTracker.mk level chaining (some cfg)).register_clear lines
          spin).2.level = 0
      ∧ (∀ total, 0 < total → total ≤ 255 →
          split_surge total
              = [(total + 1) / 3, (total + 1) / 3, total - 2 * ((total + 1) / 3)]
            ∧ (split_surge total).sum = total) := by
  have hln : ¬lines = 0 := by omega
  have hreg : (B2BTracker.mk level chaining (some cfg)).register_clear lines spin
      = (⟨some 0, (B2BTracker.mk level chaining (some cfg)).surge_on_break⟩,
          B2BTracker.mk 0 chaining (some cfg)) := by
    unfold B2BTracker.register_clear
    rw [if_neg hln, if_neg (by rw [hnq]; simp)]
  refine ⟨?_, by rw [hreg], ?_⟩
  · rw [hreg]
    show (B2BTracker.mk level chaining (some cfg)).surge_on_break = _
    unfold B2BTracker.surge_on_break
    simp only
    by_cases h0 : level = 0
    · rw [if_pos h0, if_neg (by omega)]
    · rw [if_neg h0]
      by_cases h1 : min (level + 1) 255 ≤ cfg.chargeAt
      · rw [if_pos h1, if_neg (by omega)]
      · have hatlev : cfg.chargeAt ≤ level := by omega
        have htot : ¬((level : Int) - cfg.chargeAt + cfg.base + 1 ≤ 0) := by omega
        have htn : ((level : Int) - cfg.chargeAt + cfg.base + 1).toNat
            = level - cfg.chargeAt + cfg.base + 1 := by omega
        rw [if_neg h1, if_neg htot, if_pos (by omega), htn]
  · intro total h1t h2t
    have hc2 : (total + 1) / 3 * 2 ≤ 255 := by omega
    constructor
    · unfold split_surge
      rw [min_eq_left hc2, Nat.mul_comm]
    · unfold split_surge
      simp only [List.sum_cons, List.sum_nil]
      omega

/-- Witness for C5 amended: breaking from level 4 with a single plain line
clear yields surge [2,2,1] under tetra_league and [1,1,0] under quick_play,
and resets the level to 0. -/
theorem C5_surge_break_witness :
    ((B2BTracker.mk 4 false (some ChargingConfig.tetra_league)).register_clear
        1 SpinType.None).1.surge = some [2, 2, 1]
      ∧ ((B2BTracker.mk 4 false (some ChargingConfig.quick_play)).register_clear
        1 SpinType.None).1.surge = some [1, 1, 0]
      ∧ ((B2BTracker.mk 4 false (some ChargingConfig.tetra_league)).register_clear
        1 SpinType.None).2.level = 0 := by
  have h1 := C5_surge_break 4 false ChargingConfig.tetra_league 1 SpinType.None
    (by norm_num) (by decide) (by decide) (by norm_num) (by decide)
  have h2 := C5_surge_break 4 false ChargingConfig.quick_play 1 SpinType.None
    (by norm_num) (by decide) (by decide) (by norm_num) (by decide)
  refine ⟨?_, ?_, h1.2.1⟩
  · rw [h1.1]
    decide
  · rw [h2.1]
    decide

/-! ## C6: attack calculation — attack.rs, combo.rs, config.rs

f32 garbage values are modelled over ℚ.  On every path exercised here the
f32 arithmetic is exact: all base values are small integers, the combo
multiplier path at combo ≤ 1 multiplies an integer ≤ 515 by a multiple of
1/4 bounded by 64.75 (a product representable exactly in a 24-bit
mantissa), and the garbage multiplier used by the presets is 1.0.  The only
inexact path, the `ln_1p` floor inside `apply_combo_multiplier` taken when
combo > 1, is mapped to `none`. -/

def SINGLE : Nat := 0
def DOUBLE : Nat := 1
def TRIPLE : Nat := 2
def QUAD : Nat := 4
def PENTA : Nat := 5
def TSPIN_MINI : Nat := 0
def TSPIN : Nat := 0
def TSPIN_MINI_SINGLE : Nat := 0
def TSPIN_SINGLE : Nat := 2
def TSPIN_MINI_DOUBLE : Nat := 1
def TSPIN_DOUBLE : Nat := 4
def TSPIN_MINI_TRIPLE : Nat := 2
def TSPIN_TRIPLE : Nat := 6
def TSPIN_QUAD : Nat := 10
def TSPIN_PENTA : Nat := 12

/-- attack.rs `BACK_TO_BACK_BONUS: u8 = 1` (distinct from the b2b.rs f32
constant of the same name, whose value 1.0 is inlined as `some 1` in
`bonus_for_level` above). -/
def BACK_TO_BACK_BONUS : Nat := 1

def CLASSIC_COMBO_TABLE : List Nat := [0, 1, 1, 2, 2, 3, 3, 4, 4, 4, 5]
def MODERN_COMBO_TABLE : List Nat := [0, 1, 1, 2, 2, 2, 3, 3, 3, 3, 3, 3, 4]

inductive ComboTable | Multiplier | Classic | Modern | NoTable
deriving DecidableEq, Repr

/-- config.rs `AttackConfig` (f32 `garbage_multiplier` as ℚ). -/
structure AttackConfig where
  pc_garbage : Nat
  pc_b2b : Nat
  b2b_chaining : Bool
  b2b_charging : Option ChargingConfig
  combo_table : ComboTable
  garbage_multiplier : ℚ
deriving DecidableEq, Repr

def AttackConfig.tetra_league : AttackConfig :=
  ⟨5, 2, true, some ChargingConfig.tetra_league, ComboTable.Multiplier, 1⟩

def AttackConfig.quick_play : AttackConfig :=
  ⟨3, 2, false, some ChargingConfig.quick_play, ComboTable.Multiplier, 1⟩

def perfect_clear_attack (config : AttackConfig) : Nat := config.pc_garbage

def perfect_clear_b2b_bonus (config : AttackConfig) : Nat := config.pc_b2b

/-- attack.rs `base_attack`; `lines.saturating_sub(5)` is Nat subtraction. -/
def base_attack (lines : Nat) (spin : SpinType) : ℚ :=
  match lines with
  | 0 => if spin = SpinType.Mini then (TSPIN_MINI : ℚ)
      else if spin ≠ SpinType.None then (TSPIN : ℚ) else 0
  | 1 => if spin = SpinType.Mini then (TSPIN_MINI_SINGLE : ℚ)
      else if spin ≠ SpinType.None then (TSPIN_SINGLE : ℚ) else (SINGLE : ℚ)
  | 2 => if spin = SpinType.Mini then (TSPIN_MINI_DOUBLE : ℚ)
      else if spin ≠ SpinType.None then (TSPIN_DOUBLE : ℚ) else (DOUBLE : ℚ)
  | 3 => if spin = SpinType.Mini then (TSPIN_MINI_TRIPLE : ℚ)
      else if spin ≠ SpinType.None then (TSPIN_TRIPLE : ℚ) else (TRIPLE : ℚ)
  | 4 => if spin ≠ SpinType.None then (TSPIN_QUAD : ℚ) else (QUAD : ℚ)
  | 5 => if spin ≠ SpinType.None then (TSPIN_PENTA : ℚ) else (PENTA : ℚ)
  | _ => if spin ≠ SpinType.None then (TSPIN_PENTA : ℚ) + 2 * ((lines - 5 : Nat) : ℚ)
      else (PENTA : ℚ) + ((lines - 5 : Nat) : ℚ)

def COMBO_BONUS : ℚ := 1 / 4

/-- combo.rs `apply_combo_multiplier`; the combo > 1 branch takes a max
with an `ln_1p` value and is mapped to `none`. -/
def apply_combo_multiplier (base_garbage : ℚ) (combo : Nat) : Option ℚ :=
  if 0 < combo then
    if 1 < combo then none
    else some (base_garbage * (1 + COMBO_BONUS * combo))
  else some base_garbage

def combo_table_bonus (combo : Nat) (table : List Nat) : ℚ :=
  if table.isEmpty then 0
  else if combo < table.length then (table.getD combo 0 : ℚ)
  else (table.getD (table.length - 1) 0 : ℚ)

def apply_combo_table (base_garbage : ℚ) (combo : Nat) (table : ComboTable) :
    Option ℚ :=
  match table with
  | ComboTable.Multiplier => apply_combo_multiplier base_garbage combo
  | ComboTable.Classic => some (base_garbage + combo_table_bonus combo CLASSIC_COMBO_TABLE)
  | ComboTable.Modern => some (base_garbage + combo_table_bonus combo MODERN_COMBO_TABLE)
  | ComboTable.NoTable => some base_garbage

/-- attack.rs `calculate_attack`. -/
def calculate_attack (lines : Nat) (spin : SpinType) (b2b : Nat) (combo : Nat)
    (config : AttackConfig) (is_perfect_clear : Bool) : Option ℚ :=
  (apply_combo_table
      (base_attack lines spin
        + (if is_perfect_clear then (perfect_clear_attack config : ℚ) else 0)
        + (if 0 < lines ∧ 0 < b2b then
            (if is_perfect_clear then (perfect_clear_b2b_bonus config : ℚ)
              else (BACK_TO_BACK_BONUS : ℚ))
          else 0))
      combo config.combo_table).map (fun g => g * config.garbage_multiplier)

/-- C6: under the tetra_league preset, a plain quad with no back-to-back,
no combo and no perfect clear sends exactly 4; with b2b level 1 exactly 5
(quad + BACK_TO_BACK_BONUS); with a perfect clear exactly 9
(quad + pc_garbage 5).  All three values are exact in f32. -/
theorem C6_tetra_league_attack_values :
    calculate_attack 4 SpinType.None 0 0 AttackConfig.tetra_league false = some 4
      ∧ calculate_attack 4 SpinType.None 1 0 AttackConfig.tetra_league false = some 5
      ∧ calculate_attack 4 SpinType.None 0 0 AttackConfig.tetra_league true = some 9 := by
  refine ⟨?_, ?_, ?_⟩ <;>
    simp [calculate_attack, apply_combo_table, apply_combo_multiplier,
      base_attack, AttackConfig.tetra_league, perfect_clear_attack,
      perfect_clear_b2b_bonus, QUAD, BACK_TO_BACK_BONUS] <;> norm_num

/-! ## Collision map — collision_map.rs -/

/-- collision_map.rs local `height_mask = (1 << Board::HEIGHT) - 1`. -/
def MASK40 : Nat := (1 <<< 40) - 1

/-- movegen_bitboard.rs `HEIGHT_MASK = (1 << 44) - 1`. -/
def HEIGHT_MASK : Nat := (1 <<< 44) - 1

/-- The inner mino loop of `CollisionMap::new` for one (rotation, x).  The
Rust loop `break`s after assigning `!0`; since every other update is an OR
and `!0` absorbs all further ORs, the break is modelled by OR-ing `!0` and
folding on. -/
def collisionBits (b : Board) (p : Piece) (r : Rotation) (x : Int) : Nat :=
  (p.minos r).foldl (fun (bits : Nat) (d : Int × Int) =>
    if x + d.1 < 0 ∨ 10 ≤ x + d.1 then bits ||| U64_MAX
    else
      bits
        ||| ((if (0 : Int) < d.2 then (b.column (x + d.1).toNat &&& MASK40) >>> d.2.toNat
            else if d.2 < (0 : Int) then (b.column (x + d.1).toNat &&& MASK40) <<< (-d.2).toNat
            else b.column (x + d.1).toNat &&& MASK40 : Nat))
        ||| ((if d.2 < (0 : Int) then (1 <<< (-d.2).toNat) - 1 else 0 : Nat))
        ||| ((if 0 < (40 : Int) - d.2 ∧ (40 : Int) - d.2 < 44 then
              not64 ((1 <<< ((40 : Int) - d.2).toNat) - 1)
            else if (40 : Int) - d.2 ≤ 0 then U64_MAX else 0 : Nat))) 0

/-- collision_map.rs `CollisionMap`: [rot][x+2] → blocked-y bitboard. -/
structure CollisionMap where
  map : List (List Nat)
deriving DecidableEq, Repr

/-- collision_map.rs `CollisionMap::new`. -/
def CollisionMap.new (b : Board) (p : Piece) : CollisionMap :=
  ⟨(List.range 4).map fun rot =>
    (List.range 14).map fun x_off => collisionBits b p (rotOfIdx rot) ((x_off : Int) - 2)⟩

/-- collision_map.rs `CollisionMap::get_column`; `(x + 2) as usize ≥ 14`
covers both negative x (usize wrap) and x > 11. -/
def CollisionMap.get_column (cm : CollisionMap) (r : Rotation) (x : Int) : Nat :=
  if x + 2 < 0 ∨ 14 ≤ x + 2 then U64_MAX
  else (cm.map.getD r.idx []).getD (x + 2).toNat 0

/-- collision_map.rs `CollisionMap::collides`. -/
def CollisionMap.collides (cm : CollisionMap) (r : Rotation) (x y : Int) : Bool :=
  if x + 2 < 0 ∨ 14 ≤ x + 2 ∨ y < 0 ∨ 44 ≤ y then true
  else (cm.get_column r x &&& (1 <<< y.toNat)) != 0

/-! ## Bitboard flood-fill movegen — movegen_bitboard.rs

The Rust `[[u64; 14]; 4]` (and `[[u64; 16]; 4]` seen) arrays are modelled
as nested lists indexed [rot][x_idx]. -/

abbrev Grid := List (List Nat)

def gridGet (g : Grid) (r x : Nat) : Nat := (g.getD r []).getD x 0

def gridSet (g : Grid) (r x v : Nat) : Grid := g.set r ((g.getD r []).set x v)

def gridOr (g : Grid) (r x v : Nat) : Grid := gridSet g r x (gridGet g r x ||| v)

def grid14 : Grid := List.replicate 4 (List.replicate 14 0)

def grid16 : Grid := List.replicate 4 (List.replicate 16 0)

/-- movegen_bitboard.rs `CANONICAL_ROT` table. -/
def canonical_rotation (p : Piece) (r : Rotation) : Rotation :=
  match p with
  | .I | .S | .Z =>
    (match r with
      | .North | .South => .North
      | .East | .West => .East)
  | .O => .North
  | .T | .J | .L => r

/-- movegen_bitboard.rs `canonical_offset`. -/
def canonical_offset (p : Piece) (r : Rotation) : Int × Int :=
  match p with
  | .S | .Z =>
    (match r with
      | .South => ((0 : Int), (-1 : Int))
      | .West => (-1, 0)
      | _ => (0, 0))
  | .I =>
    (match r with
      | .South => ((-1 : Int), (0 : Int))
      | .West => (0, 1)
      | _ => (0, 0))
  | _ => (0, 0)

/-- movegen_bitboard.rs `shift_y` (u64 left shift wraps mod 2^64 before the
44-row mask). -/
def shift_y (mask : Nat) (dy : Int) : Nat :=
  if dy > 0 then shl64 mask dy.toNat &&& HEIGHT_MASK
  else if dy < 0 then mask >>> (-dy).toNat
  else mask

/-- movegen_bitboard.rs `classify_t_spin_bits`.  The Rust indexes
`board.column(target_x ± 1)` only under the `target_x > 0` / `target_x < 9`
guards; `Board.column` here is total (getD), which agrees wherever the Rust
does not panic. -/
def classify_t_spin_bits (b : Board) (to_rot : Rotation) (target_x : Int)
    (bits : Nat) (kick_idx : Nat) : Nat × Nat × Nat :=
  let left := if target_x > 0 then b.column (target_x - 1).toNat else U64_MAX
  let right := if target_x < 9 then b.column (target_x + 1).toNat else U64_MAX
  let c0 := left >>> 1
  let c1 := right >>> 1
  let c2 := shl64 right 1 ||| 1
  let c3 := shl64 left 1 ||| 1
  let spins := bits &&& ((c0 &&& c1 &&& (c2 ||| c3)) ||| (c2 &&& c3 &&& (c0 ||| c1)))
  let no_spin_bits := bits &&& not64 spins
  if spins = 0 then (no_spin_bits, 0, 0)
  else
    let corners := [c0, c1, c2, c3]
    let full_mask := spins &&& corners.getD to_rot.idx 0
        &&& corners.getD ((to_rot.idx + 1) % 4) 0
    if 4 ≤ kick_idx then (no_spin_bits, 0, spins)
    else (no_spin_bits, spins &&& not64 full_mask, full_mask)

/-- The mutable state of the flood fill: Rust locals `to_search`,
`searched`, `move_set`, `spin_set` (three planes) and `remaining`.  The
spin planes exist only on the T path; `track = false` leaves them zero. -/
structure MGState where
  to_search : Grid
  searched : Grid
  move_set : Grid
  spin_none : Grid
  spin_mini : Grid
  spin_full : Grid
  remaining : Nat
deriving DecidableEq, Repr

/-- The kick loop of movegen_bitboard.rs `propagate_rotation_cobra`:
`track` is true exactly on the T path, where Rust passes `Some(&mut
spin_set)` and `piece == Piece::T` holds. -/
def propagateKicks (cm : CollisionMap) (b : Board) (p : Piece) (track : Bool)
    (to_rot : Rotation) (src_x : Int) (source_subtract : Bool) :
    List (Int × Int) → Nat → Nat → MGState → MGState
  | [], _, _, st => st
  | k :: rest, kick_idx, current, st =>
    if src_x + k.1 + 2 < 0 ∨ 14 ≤ src_x + k.1 + 2 then
      propagateKicks cm b p track to_rot src_x source_subtract rest (kick_idx + 1)
        current st
    else
      let target_x := src_x + k.1
      let target_x_idx := (target_x + 2).toNat
      let valid := shift_y current k.2 &&& not64 (cm.get_column to_rot target_x)
          &&& HEIGHT_MASK
      let st1 :=
        if track ∧ valid ≠ 0 then
          let c := classify_t_spin_bits b to_rot target_x valid kick_idx
          { st with
            spin_none := gridOr st.spin_none to_rot.idx target_x_idx c.1,
            spin_mini := gridOr st.spin_mini to_rot.idx target_x_idx c.2.1,
            spin_full := gridOr st.spin_full to_rot.idx target_x_idx c.2.2 }
        else st
      let new_bits := valid &&& not64 (gridGet st1.searched to_rot.idx target_x_idx)
      let st2 :=
        if new_bits ≠ 0 then
          { st1 with
            to_search := gridOr st1.to_search to_rot.idx target_x_idx new_bits,
            remaining := st1.remaining ||| (1 <<< (target_x_idx * 4 + to_rot.idx)) }
        else st1
      let current2 :=
        if source_subtract then current &&& not64 (shift_y valid (-k.2)) else current
      if current2 = 0 then st2
      else propagateKicks cm b p track to_rot src_x source_subtract rest
        (kick_idx + 1) current2 st2

/-- movegen_bitboard.rs `propagate_rotation_cobra`. -/
def propagate_rotation_cobra (cm : CollisionMap) (b : Board) (p : Piece)
    (track : Bool) (from_rot to_rot : Rotation) (src_x : Int) (source : Nat)
    (source_subtract : Bool) (st : MGState) : MGState :=
  if source &&& HEIGHT_MASK = 0 then st
  else propagateKicks cm b p track to_rot src_x source_subtract
    (get_kicks p from_rot to_rot) 0 (source &&& HEIGHT_MASK) st

/-- The softdrop fixpoint loop `while (m & current) != m`.  Each pass adds
at least one bit to `current` (below 2^44), so fuel 64 always reaches the
fixpoint.  Returns (current, m); the T path ORs the final `m` into the
spin-NONE plane. -/
def softdropGo : Nat → Nat → Nat → Nat → Nat × Nat
  | 0, current, m, _ => (current, m)
  | fuel + 1, current, m, blocked =>
    if m &&& current = m then (current, m)
    else softdropGo fuel (current ||| m)
      (m ||| ((m >>> 1) &&& not64 blocked &&& HEIGHT_MASK)) blocked

/-- One iteration of the `while remaining != 0` loop shared by
`generate_moves_t` / `generate_moves_no_spin` / `count_placements_t` /
`count_placements_no_spin` (the four Rust copies differ only in whether
the spin planes are maintained, which `track` selects). -/
def movegenStep (cm : CollisionMap) (b : Board) (p : Piece) (track : Bool)
    (st : MGState) : MGState :=
  let index := ctz64 st.remaining
  let x_idx := index / 4
  let rot := index % 4
  let x : Int := (x_idx : Int) - 2
  let rotation := rotOfIdx rot
  let current0 := gridGet st.to_search rot x_idx
  if current0 = 0 then { st with remaining := st.remaining &&& not64 (1 <<< index) }
  else
    let blocked := cm.get_column rotation x
    let dropped := softdropGo 64 current0
      ((current0 >>> 1) &&& not64 blocked &&& HEIGHT_MASK) blocked
    let current := dropped.1
    let st1 :=
      if track then { st with spin_none := gridOr st.spin_none rot x_idx dropped.2 }
      else st
    let st2 := { st1 with to_search := gridSet st1.to_search rot x_idx current }
    let locking := current &&& (shl64 blocked 1 ||| 1) &&& not64 blocked
    let st3 := { st2 with move_set := gridOr st2.move_set rot x_idx locking }
    let st4 :=
      if x > -2 then
        let li := x_idx - 1
        let nb := current &&& not64 (cm.get_column rotation (x - 1))
            &&& not64 (gridGet st3.searched rot li)
        if nb ≠ 0 then
          let s := { st3 with
            to_search := gridOr st3.to_search rot li nb,
            remaining := st3.remaining ||| (1 <<< (li * 4 + rot)) }
          if track then { s with spin_none := gridOr s.spin_none rot li nb } else s
        else st3
      else st3
    let st5 :=
      if x < 11 then
        let ri := x_idx + 1
        let nb := current &&& not64 (cm.get_column rotation (x + 1))
            &&& not64 (gridGet st4.searched rot ri)
        if nb ≠ 0 then
          let s := { st4 with
            to_search := gridOr st4.to_search rot ri nb,
            remaining := st4.remaining ||| (1 <<< (ri * 4 + rot)) }
          if track then { s with spin_none := gridOr s.spin_none rot ri nb } else s
        else st4
      else st4
    let st6 := propagate_rotation_cobra cm b p track rotation rotation.cw x current
      (p ≠ Piece.I) st5
    let st7 := propagate_rotation_cobra cm b p track rotation rotation.ccw x current
      (p ≠ Piece.I) st6
    let st8 := propagate_rotation_cobra cm b p track rotation rotation.flip x current
      (p ≠ Piece.I) st7
    { st8 with
      searched := gridOr st8.searched rot x_idx (gridGet st8.to_search rot x_idx),
      to_search := gridSet st8.to_search rot x_idx 0,
      remaining := st8.remaining &&& not64 (1 <<< index) }

/-- The `while remaining != 0` loop, by fuel.  Every concrete run below
terminates well before the fuel of 4096 is spent; both perft variants call
the same function, so the fuel bound cancels out of every comparison. -/
def movegenLoop (cm : CollisionMap) (b : Board) (p : Piece) (track : Bool) :
    Nat → MGState → MGState
  | 0, st => st
  | fuel + 1, st =>
    if st.remaining = 0 then st
    else movegenLoop cm b p track fuel (movegenStep cm b p track st)

/-- movegen_bitboard.rs `seed_initial_states` plus the surrounding state
setup (`searched` starts as the collision columns themselves; the T path
seeds the spin-NONE plane from `to_search[0]`). -/
def movegenInit (cm : CollisionMap) (p : Piece) (track : Bool) : Option MGState :=
  if cm.collides Rotation.North p.spawn_x p.spawn_y then none
  else
    some
      { to_search := gridSet grid14 0 (p.spawn_x + 2).toNat (1 <<< p.spawn_y.toNat)
        searched := cm.map
        move_set := grid14
        spin_none :=
          if track then
            (List.range 14).foldl (fun g xi =>
              gridOr g 0 xi (gridGet
                (gridSet grid14 0 (p.spawn_x + 2).toNat (1 <<< p.spawn_y.toNat)) 0 xi))
              grid14
          else grid14
        spin_mini := grid14
        spin_full := grid14
        remaining := 1 <<< ((p.spawn_x + 2).toNat * 4) }

/-- The `while bits != 0 { trailing_zeros; bits &= bits - 1 }` bit walk:
the set-bit positions of a u64, lowest first. -/
def extractBitsGo : Nat → Nat → List Nat
  | 0, _ => []
  | fuel + 1, bits =>
    if bits = 0 then [] else ctz64 bits :: extractBitsGo fuel (bits &&& (bits - 1))

def bitPositions (bits : Nat) : List Nat := extractBitsGo 64 bits

/-- `u64::count_ones`. -/
def popcount (n : Nat) : Nat := (bitPositions n).length

/-- movegen_bitboard.rs `extract_placements_cobra`.  `track` plays the role
of `spin_set_t.is_some()` (the T path). -/
def extract_placements_cobra (b : Board) (p : Piece) (track : Bool)
    (st : MGState) : List Move :=
  ((List.range 4).foldl (fun (acc : Grid × List Move) (rot : Nat) =>
    (List.range 14).foldl (fun acc (x_idx : Nat) =>
      let rotation := rotOfIdx rot
      let canon_rot := canonical_rotation p rotation
      let off := canonical_offset p rotation
      let x : Int := (x_idx : Int) - 2
      let locked := gridGet st.move_set rot x_idx
      if locked = 0 then acc
      else if (x + off.1) < -2 ∨ (12 : Int) < x + off.1 then acc
      else
        let canon_x := x + off.1
        let canon_x_idx := (canon_x + 2).toNat
        (bitPositions locked).foldl (fun acc (y : Nat) =>
          let canon_y : Int := (y : Int) + off.2
          if canon_y < 0 ∨ 64 ≤ canon_y then acc
          else
            let cyb := 1 <<< canon_y.toNat
            if gridGet acc.1 canon_rot.idx canon_x_idx &&& cyb ≠ 0 then acc
            else
              let seen2 := gridOr acc.1 canon_rot.idx canon_x_idx cyb
              if track then
                let bit := 1 <<< y
                let hn := gridGet st.spin_none rot x_idx &&& bit ≠ 0
                let hm := gridGet st.spin_mini rot x_idx &&& bit ≠ 0
                let hf := gridGet st.spin_full rot x_idx &&& bit ≠ 0
                (seen2, acc.2
                  ++ (if hn then
                      [⟨p, canon_rot, canon_x, canon_y, false, SpinType.None⟩] else [])
                  ++ (if hm then
                      [⟨p, canon_rot, canon_x, canon_y, false, SpinType.Mini⟩] else [])
                  ++ (if hf then
                      [⟨p, canon_rot, canon_x, canon_y, false, SpinType.Full⟩] else [])
                  ++ (if ¬hn ∧ ¬hm ∧ ¬hf then
                      [⟨p, canon_rot, canon_x, canon_y, false,
                        detect_all_spin b p canon_x canon_y canon_rot⟩] else []))
              else
                (seen2, acc.2
                  ++ [⟨p, canon_rot, canon_x, canon_y, false,
                    detect_all_spin b p canon_x canon_y canon_rot⟩])) acc) acc)
    (grid16, ([] : List Move))).2

/-- movegen_bitboard.rs `generate_moves_no_spin` (the non-T path of
`generate_moves_bitboard`; despite the name it still runs `detect_all_spin`
on extraction). -/
def generate_moves_no_spin (b : Board) (p : Piece) : List Move :=
  match movegenInit (CollisionMap.new b p) p false with
  | none => []
  | some st0 =>
    extract_placements_cobra b p false
      (movegenLoop (CollisionMap.new b p) b p false 4096 st0)

/-- movegen_bitboard.rs `generate_moves_t`. -/
def generate_moves_t (b : Board) : List Move :=
  match movegenInit (CollisionMap.new b Piece.T) Piece.T true with
  | none => []
  | some st0 =>
    extract_placements_cobra b Piece.T true
      (movegenLoop (CollisionMap.new b Piece.T) b Piece.T true 4096 st0)

/-- movegen_bitboard.rs `generate_moves_bitboard`. -/
def generate_moves_bitboard (b : Board) (p : Piece) : List Move :=
  if p = Piece.T then generate_moves_t b else generate_moves_no_spin b p

/-- movegen_bitboard.rs `count_placements_no_spin`, counting loop. -/
def countNoSpinTail (p : Piece) (move_set : Grid) : Nat :=
  ((List.range 4).foldl (fun (acc : Grid × Nat) (rot : Nat) =>
    (List.range 14).foldl (fun acc (x_idx : Nat) =>
      let rotation := rotOfIdx rot
      let canon_rot := canonical_rotation p rotation
      let off := canonical_offset p rotation
      let x : Int := (x_idx : Int) - 2
      let locked := gridGet move_set rot x_idx
      if locked = 0 then acc
      else if (x + off.1) < -2 ∨ (12 : Int) < x + off.1 then acc
      else
        let canon_x_idx := (x + off.1 + 2).toNat
        let shifted :=
          if (0 : Int) < off.2 then shl64 locked off.2.toNat
          else if off.2 < (0 : Int) then locked >>> (-off.2).toNat
          else locked
        let new_bits := shifted &&& not64 (gridGet acc.1 canon_rot.idx canon_x_idx)
        (gridOr acc.1 canon_rot.idx canon_x_idx shifted, acc.2 + popcount new_bits))
      acc) (grid16, 0)).2

/-- movegen_bitboard.rs `count_placements_t`, counting loop with spin
variant expansion. -/
def countTTail (st : MGState) : Nat :=
  ((List.range 4).foldl (fun (acc : Grid × Nat) (rot : Nat) =>
    (List.range 14).foldl (fun acc (x_idx : Nat) =>
      let rotation := rotOfIdx rot
      let canon_rot := canonical_rotation Piece.T rotation
      let off := canonical_offset Piece.T rotation
      let x : Int := (x_idx : Int) - 2
      let locked := gridGet st.move_set rot x_idx
      if locked = 0 then acc
      else if (x + off.1) < -2 ∨ (12 : Int) < x + off.1 then acc
      else
        let canon_x_idx := (x + off.1 + 2).toNat
        let shifted :=
          if (0 : Int) < off.2 then shl64 locked off.2.toNat
          else if off.2 < (0 : Int) then locked >>> (-off.2).toNat
          else locked
        let new_bits := shifted &&& not64 (gridGet acc.1 canon_rot.idx canon_x_idx)
        ((gridOr acc.1 canon_rot.idx canon_x_idx shifted),
          (bitPositions new_bits).foldl (fun (c : Nat) (canon_y : Nat) =>
            let y := ((canon_y : Int) - off.2).toNat
            let bit := 1 <<< y
            c + (if gridGet st.spin_none rot x_idx &&& bit ≠ 0 then 1 else 0)
              + (if gridGet st.spin_mini rot x_idx &&& bit ≠ 0 then 1 else 0)
              + (if gridGet st.spin_full rot x_idx &&& bit ≠ 0 then 1 else 0))
            acc.2)) acc) (grid16, 0)).2

/-- movegen_bitboard.rs `count_placements_no_spin`. -/
def count_placements_no_spin (b : Board) (p : Piece) : Nat :=
  match movegenInit (CollisionMap.new b p) p false with
  | none => 0
  | some st0 =>
    countNoSpinTail p
      (movegenLoop (CollisionMap.new b p) b p false 4096 st0).move_set

/-- movegen_bitboard.rs `count_placements_t`. -/
def count_placements_t (b : Board) : Nat :=
  match movegenInit (CollisionMap.new b Piece.T) Piece.T true with
  | none => 0
  | some st0 =>
    countTTail (movegenLoop (CollisionMap.new b Piece.T) b Piece.T true 4096 st0)

/-- movegen_bitboard.rs `count_placements_cobra`. -/
def count_placements_cobra (b : Board) (p : Piece) : Nat :=
  if p = Piece.T then count_placements_t b else count_placements_no_spin b p

/-- movegen_bitboard.rs `count_moves_bitboard`. -/
def count_moves_bitboard (b : Board) (p : Piece) : Nat :=
  count_placements_cobra b p

/-- The dedup loop of movegen_bitboard.rs `generate_moves_bitboard_no_spin`.
The Rust `seen: [[[bool; 44]; 14]; 4]` cube is modelled as the list of
marked (rot, x+2, y) triples; only in-range coordinates are ever inserted,
exactly as in the Rust bounds guard. -/
def dedupNoSpinGo : List Move → List (Nat × Nat × Nat) → List Move
  | [], _ => []
  | mv :: rest, seen =>
    if 0 ≤ mv.x + 2 ∧ mv.x + 2 < 14 ∧ 0 ≤ mv.y ∧ mv.y < 44 then
      if (mv.rotation.idx, (mv.x + 2).toNat, mv.y.toNat) ∈ seen then
        dedupNoSpinGo rest seen
      else
        { mv with spin_type := SpinType.None }
          :: dedupNoSpinGo rest ((mv.rotation.idx, (mv.x + 2).toNat, mv.y.toNat) :: seen)
    else
      { mv with spin_type := SpinType.None } :: dedupNoSpinGo rest seen

/-- movegen_bitboard.rs `generate_moves_bitboard_no_spin`: same placements
as `generate_moves_bitboard`, relabeled SpinType::None and deduplicated by
(rotation, x, y). -/
def generate_moves_bitboard_no_spin (b : Board) (p : Piece) : List Move :=
  dedupNoSpinGo (generate_moves_bitboard b p) []

/-! ## perft — perft.rs -/

/-- perft.rs `generate_moves_with_tspin_toggle`. -/
def generate_moves_with_tspin_toggle (b : Board) (p : Piece)
    (enable_tspin : Bool) : List Move :=
  if enable_tspin then generate_moves_bitboard b p
  else generate_moves_bitboard_no_spin b p

/-- perft.rs `perft_cobra_with_tspin`.  The Rust mutates the board with
`apply_move_mut` and restores it with `unapply_move` around each child;
here each child simply recurses on the applied board. -/
def perft_cobra_with_tspin : Board → List Piece → Nat → Bool → Nat
  | _, _, 0, _ => 1
  | _, [], _, _ => 1
  | b, p :: _, 1, _ => count_moves_bitboard b p
  | b, p :: q, depth + 2, enable =>
    ((generate_moves_with_tspin_toggle b p enable).map
      (fun mv => perft_cobra_with_tspin (apply_move_mut b mv).1 q (depth + 1) enable)).sum

/-- perft.rs `perft`. -/
def perft (b : Board) (q : List Piece) (depth : Nat) : Nat :=
  perft_cobra_with_tspin b q depth true

/-- perft.rs `perft_no_tspin`. -/
def perft_no_tspin (b : Board) (q : List Piece) (depth : Nat) : Nat :=
  perft_cobra_with_tspin b q depth false

set_option maxRecDepth 10000 in
set_option maxHeartbeats 2000000 in
/-- C2: on the empty board the placement engine produces exactly 17
canonical placements for I, 9 for O, 34 for T, 17 for S, 17 for Z, 34 for J
and 34 for L, and `count_placements_cobra` returns the same numbers. -/
theorem C2_empty_board_counts :
    ((generate_moves_bitboard Board.new Piece.I).length = 17
      ∧ (generate_moves_bitboard Board.new Piece.O).length = 9
      ∧ (generate_moves_bitboard Board.new Piece.T).length = 34
      ∧ (generate_moves_bitboard Board.new Piece.S).length = 17
      ∧ (generate_moves_bitboard Board.new Piece.Z).length = 17
      ∧ (generate_moves_bitboard Board.new Piece.J).length = 34
      ∧ (generate_moves_bitboard Board.new Piece.L).length = 34)
      ∧ (count_placements_cobra Board.new Piece.I = 17
      ∧ count_placements_cobra Board.new Piece.O = 9
      ∧ count_placements_cobra Board.new Piece.T = 34
      ∧ count_placements_cobra Board.new Piece.S = 17
      ∧ count_placements_cobra Board.new Piece.Z = 17
      ∧ count_placements_cobra Board.new Piece.J = 34
      ∧ count_placements_cobra Board.new Piece.L = 34) := by
  constructor
  · exact ⟨by decide, by decide, by decide, by decide, by decide, by decide, by decide⟩
  · exact ⟨by decide, by decide, by decide, by decide, by decide, by decide, by decide⟩

/-- A board with cells (2,1) and (5,1): a T piece locked in the notch makes
the same canonical position reachable both with and without a spin label,
so the labeled generator emits two moves where the deduplicated one emits
one. -/
def c3Board : Board :=
  ⟨[0, 0, 2, 0, 0, 2, 0, 0, 0, 0],
    compute_zobrist_hash [0, 0, 2, 0, 0, 2, 0, 0, 0, 0]⟩

set_option maxRecDepth 10000 in
set_option maxHeartbeats 4000000 in
/-- C3 counterexample: on `c3Board` with queue [T, O] and depth 2, perft
with T-spin labeling counts 357 nodes while perft without counts 348 — the
labeled generator emits one move per spin class present at a canonical
placement, so spin is a placement discriminator for node counts, not just a
label. -/
theorem C3_perft_tspin_counterexample :
    perft c3Board [Piece.T, Piece.O] 2 = 357
      ∧ perft_no_tspin c3Board [Piece.T, Piece.O] 2 = 348
      ∧ (generate_moves_bitboard c3Board Piece.T).length = 39
      ∧ (generate_moves_bitboard_no_spin c3Board Piece.T).length = 38 := by
  exact ⟨by decide, by decide, by decide, by decide⟩

theorem dedupNoSpinGo_sublist (l : List Move) (seen : List (Nat × Nat × Nat)) :
    (dedupNoSpinGo l seen).Sublist
      (l.map (fun mv => { mv with spin_type := SpinType.None })) := by
  induction l generalizing seen with
  | nil => simp [dedupNoSpinGo]
  | cons mv rest ih =>
    unfold dedupNoSpinGo
    by_cases h1 : 0 ≤ mv.x + 2 ∧ mv.x + 2 < 14 ∧ 0 ≤ mv.y ∧ mv.y < 44
    · rw [if_pos h1]
      by_cases h2 : (mv.rotation.idx, (mv.x + 2).toNat, mv.y.toNat) ∈ seen
      · rw [if_pos h2]
        simp only [List.map_cons]
        exact (ih seen).cons _
      · rw [if_neg h2]
        simp only [List.map_cons]
        exact (ih _).cons₂ _
    · rw [if_neg h1]
      simp only [List.map_cons]
      exact (ih seen).cons₂ _

/-- The applied board ignores the spin label: `Move.cells` reads only
piece, rotation, x and y. -/
theorem apply_move_mut_relabel (b : Board) (mv : Move) (s : SpinType) :
    (apply_move_mut b { mv with spin_type := s }).1 = (apply_move_mut b mv).1 := rfl

theorem perftCobraMono (d : Nat) (b : Board) (q : List Piece) :
    perft_cobra_with_tspin b q d false ≤ perft_cobra_with_tspin b q d true := by
  induction d generalizing b q with
  | zero => cases q <;> exact Nat.le_refl _
  | succ n ih =>
    cases q with
    | nil => exact Nat.le_refl _
    | cons p rest =>
      cases n with
      | zero => exact Nat.le_refl _
      | succ m =>
        have hstep : ∀ (en : Bool), perft_cobra_with_tspin b (p :: rest) (m + 2) en
            = ((generate_moves_with_tspin_toggle b p en).map
              (fun mv => perft_cobra_with_tspin (apply_move_mut b mv).1 rest
                (m + 1) en)).sum := fun _ => rfl
        rw [hstep false, hstep true]
        have h1 : generate_moves_with_tspin_toggle b p false
            = dedupNoSpinGo (generate_moves_bitboard b p) [] := rfl
        have h2 : generate_moves_with_tspin_toggle b p true
            = generate_moves_bitboard b p := rfl
        rw [h1, h2]
        have hle1 : ((dedupNoSpinGo (generate_moves_bitboard b p) []).map
              (fun mv => perft_cobra_with_tspin (apply_move_mut b mv).1 rest
                (m + 1) false)).sum
            ≤ (((generate_moves_bitboard b p).map
                (fun mv => { mv with spin_type := SpinType.None })).map
              (fun mv => perft_cobra_with_tspin (apply_move_mut b mv).1 rest
                (m + 1) false)).sum :=
          ((dedupNoSpinGo_sublist (generate_moves_bitboard b p) []).map _).sum_le_sum
            (fun a _ => Nat.zero_le a)
        have heq : (((generate_moves_bitboard b p).map
              (fun mv => { mv with spin_type := SpinType.None })).map
            (fun mv => perft_cobra_with_tspin (apply_move_mut b mv).1 rest
              (m + 1) false)).sum
            = ((generate_moves_bitboard b p).map
              (fun mv => perft_cobra_with_tspin (apply_move_mut b mv).1 rest
                (m + 1) false)).sum := by
          rw [List.map_map]
          rfl
        have hle2 : ((generate_moves_bitboard b p).map
              (fun mv => perft_cobra_with_tspin (apply_move_mut b mv).1 rest
                (m + 1) false)).sum
            ≤ ((generate_moves_bitboard b p).map
              (fun mv => perft_cobra_with_tspin (apply_move_mut b mv).1 rest
                (m + 1) true)).sum :=
          List.sum_le_sum (fun mv _ => ih (apply_move_mut b mv).1 rest)
        exact le_trans (le_trans hle1 (le_of_eq heq)) hle2

/-- C3 amended: perft without T-spin labeling never exceeds perft with it —
the unlabeled move list is the labeled list relabeled and deduplicated by
(rotation, x, y), and the applied board ignores the label — but the counts
are not equal in general (see the depth-2 counterexample). -/
theorem C3_perft_monotone (b : Board) (q : List Piece) (d : Nat) :
    perft_no_tspin b q d ≤ perft b q d :=
  perftCobraMono d b q
